import Mathlib

/-!
Verification of the logical core of a browser todo-list manager
(task model `model.js`, persistence adapter `store.js`, and the derived-view
helpers of `app.js`).

The JavaScript source is shallowly embedded:
* task records become a Lean structure `Task`; the partial-record argument of
  `updateTask` becomes `TaskPatch` (a structure of `Option` fields, `none`
  meaning the property is absent from the partial object);
* the effects `crypto.randomUUID()` and `Date.now()` become explicit
  parameters `freshId` and `now`;
* `localStorage` becomes an explicit `Store` state threaded through the
  persistence functions; a thrown exception becomes `Except.error ()`;
* `JSON.stringify` / `JSON.parse` are modelled character-exactly by
  `stringifyChars` / `parseJson` below (integral numerals; fractional and
  exponent numerals, which never arise for task data, are out of model);
* object aliasing is modelled in a separate heap-instrumented embedding
  (`Heap`, `addTaskH`, …) where every JavaScript object creation is an
  allocation, so in-place mutation of existing objects is observable.
-/

namespace Todo

/-- Whitespace as recognized by the JavaScript `String.prototype.trim` for
the characters that occur in this development (space, tab, LF, VT, FF, CR). -/
def jsIsWs (c : Char) : Bool :=
  c = ' ' || c = '\t' || c = '\n' || c = '\x0b' || c = '\x0c' || c = '\r'

/-- Drop trailing whitespace characters (model of the right half of
`String.prototype.trim`). -/
def dropTrailingWs (l : List Char) : List Char :=
  l.foldr (fun c acc => if acc.isEmpty && jsIsWs c then [] else c :: acc) []

/-- Character-level model of `String.prototype.trim`: drop leading and
trailing whitespace. -/
def jsTrimChars (l : List Char) : List Char :=
  dropTrailingWs (l.dropWhile jsIsWs)

/-- Model of the JavaScript `String.prototype.trim`. -/
def jsTrim (s : String) : String :=
  String.mk (jsTrimChars s.data)

/-- Model of the JavaScript `String.prototype.toLowerCase` (character-wise
lowercasing). -/
def jsToLower (s : String) : String :=
  String.mk (s.data.map Char.toLower)

/-- A task record, as created by `addTask` in `model.js`: `id`, `text`,
`done`, `createdAt`, and the optional `dueDate`, `priority` (stored as the
JavaScript `null` when absent, here `none`), `tags`, and the `updatedAt`
property which is absent (`none`) until a mutation stamps it. -/
structure Task where
  id : String
  text : String
  done : Bool
  createdAt : Nat
  dueDate : Option String
  priority : Option String
  tags : List String
  updatedAt : Option Nat
deriving DecidableEq, Repr

/-- A `Partial<Task>` argument for `updateTask`: each field is `some v` when
the partial object carries that property and `none` when it is absent.
`dueDate`/`priority` use a nested `Option` since the property can be present
with value `null`. -/
structure TaskPatch where
  id : Option String := none
  text : Option String := none
  done : Option Bool := none
  createdAt : Option Nat := none
  dueDate : Option (Option String) := none
  priority : Option (Option String) := none
  tags : Option (List String) := none
  updatedAt : Option Nat := none
deriving DecidableEq, Repr

/-- The JavaScript object spread `{ ...task, ...fields }`: every property
present on `fields` overrides the one of `task`. -/
def applyPatch (t : Task) (p : TaskPatch) : Task :=
  { id := p.id.getD t.id
    text := p.text.getD t.text
    done := p.done.getD t.done
    createdAt := p.createdAt.getD t.createdAt
    dueDate := p.dueDate.getD t.dueDate
    priority := p.priority.getD t.priority
    tags := p.tags.getD t.tags
    updatedAt := p.updatedAt.or t.updatedAt }

mutual
/-- A JSON value, the result of `JSON.parse` (integral numerals only;
fractional or exponent numerals never arise for task data). -/
inductive Json where
  | null : Json
  | bool (b : Bool) : Json
  | num (n : Int) : Json
  | str (s : String) : Json
  | arr (xs : JsonList) : Json
  | obj (kvs : JsonFields) : Json
/-- Elements of a JSON array. -/
inductive JsonList where
  | nil : JsonList
  | cons (hd : Json) (tl : JsonList) : JsonList
/-- Key/value members of a JSON object, in property order. -/
inductive JsonFields where
  | nil : JsonFields
  | cons (k : String) (v : Json) (tl : JsonFields) : JsonFields
end

/-- Loop of `normalizeTags` (`app.js`): walk the candidate entries keeping a
`seen` set of lowercased keys; non-strings are skipped, entries are trimmed,
empties are skipped, and an entry whose lowercased trim was already seen is
skipped; otherwise its trimmed form is kept (first occurrence, original
casing). -/
def normalizeTagsLoop : JsonList → List String → List String
  | .nil, _ => []
  | .cons c tl, seen =>
    match c with
    | .str s =>
      let trimmed := jsTrim s
      if trimmed = "" then normalizeTagsLoop tl seen
      else
        let key := jsToLower trimmed
        if key ∈ seen then normalizeTagsLoop tl seen
        else trimmed :: normalizeTagsLoop tl (key :: seen)
    | _ => normalizeTagsLoop tl seen

/-- `normalizeTags` from `app.js`: a non-array input yields `[]`; an array is
filtered and deduplicated by `normalizeTagsLoop`. -/
def normalizeTags : Json → List String
  | .arr xs => normalizeTagsLoop xs []
  | _ => []

/-- The task record built by `addTask`: `id` from `crypto.randomUUID()`
(parameter `freshId`), trimmed text, `done: false`, `createdAt` from
`Date.now()` (parameter `now`), `dueDate ?? null`, `priority ?? null`
(absent or `null` arguments are both `none` here), and normalized tags. -/
def mkNewTask (freshId : String) (now : Nat) (text : String)
    (dueDate priority : Option String) (tags : Json) : Task :=
  { id := freshId
    text := jsTrim text
    done := false
    createdAt := now
    dueDate := dueDate
    priority := priority
    tags := normalizeTags tags
    updatedAt := none }

/-- Modelled from the spec: `addTask` as exercised by `tests/model.test.js`
and by the `app.js` caller takes a fifth `tags` argument normalized with
`normalizeTags`; that revision of `model.js` is absent from the sources
(`part_002` has the four-argument revision, identical on every other field:
spread-append, trimmed text, `done: false`, `dueDate ?? null`,
`priority ?? null`). The effects `crypto.randomUUID()` and `Date.now()` are
the explicit parameters `freshId` and `now`. -/
def addTask (tasks : List Task) (text : String) (dueDate priority : Option String)
    (tags : Json) (freshId : String) (now : Nat) : List Task :=
  tasks ++ [mkNewTask freshId now text dueDate priority tags]

/-- `deleteTask` from `model.js`: `tasks.filter((task) => task.id !== id)`. -/
def deleteTask (tasks : List Task) (id : String) : List Task :=
  tasks.filter (fun t => t.id ≠ id)

/-- `toggleTaskStatus` from `model.js`: map over the list, and on the
matching id spread a copy with `done` flipped and `updatedAt` set to
`Date.now()` (parameter `now`). -/
def toggleTaskStatus (tasks : List Task) (id : String) (now : Nat) : List Task :=
  tasks.map (fun t =>
    if t.id = id then { t with done := !t.done, updatedAt := some now } else t)

/-- `updateTask` from `model.js`: map over the list, and on the matching id
spread-merge the partial fields. -/
def updateTask (tasks : List Task) (id : String) (fields : TaskPatch) : List Task :=
  tasks.map (fun t => if t.id = id then applyPatch t fields else t)

/-- Spec-side description of the tag candidates: each entry trimmed, with
empty/whitespace-only and non-string entries dropped. -/
def tagCands : JsonList → List String
  | .nil => []
  | .cons (.str s) tl => if jsTrim s = "" then tagCands tl else jsTrim s :: tagCands tl
  | .cons _ tl => tagCands tl

/-- Spec-side case-insensitive deduplication: keep the first occurrence of
each lowercase class, with its original casing, and drop every later entry
of the same class. -/
def specDedupCI : List String → List String
  | [] => []
  | x :: xs => x :: specDedupCI (xs.filter (fun y => jsToLower y ≠ jsToLower x))
termination_by l => l.length
decreasing_by
  simp only [List.length_cons]
  exact Nat.lt_succ_of_le (List.length_filter_le _ _)

/-- Spec-side tag normalization, assembled exactly from the spec sentence:
trim each entry, drop empties and non-strings, then deduplicate
case-insensitively keeping the first occurrence's original casing; a
non-array value yields the empty list. -/
def specNormalizeTags : Json → List String
  | .arr xs => specDedupCI (tagCands xs)
  | _ => []

/-- Priority rank from `getSortedTasks` in `app.js`:
`PRIORITY_ORDER[priority.toLowerCase()] ?? 3` with
`PRIORITY_ORDER = (high 0) (medium 1) (low 2)`; a missing priority ranks 3. -/
def priorityRank (t : Task) : Nat :=
  match t.priority with
  | some p =>
    if jsToLower p = "high" then 0
    else if jsToLower p = "medium" then 1
    else if jsToLower p = "low" then 2
    else 3
  | none => 3

/-- The sort key of the priority comparator: rank first, then `createdAt`. -/
def prioKey (t : Task) : Nat × Nat := (priorityRank t, t.createdAt)

/-- Lexicographic order on sort keys, the preorder induced by the
two-level numeric comparator of `getSortedTasks`. -/
def keyLex (p q : Nat × Nat) : Prop := p.1 < q.1 ∨ (p.1 = q.1 ∧ p.2 ≤ q.2)

instance : DecidableRel keyLex := fun p q => by
  unfold keyLex
  infer_instance

/-- The priority comparator of `getSortedTasks`:
rank difference first, `createdAt ?? 0` difference as tiebreak. -/
def prioLe (a b : Task) : Prop := keyLex (prioKey a) (prioKey b)

instance : DecidableRel prioLe := fun a b => by
  unfold prioLe
  infer_instance

instance : IsTotal Task prioLe where
  total a b := by
    unfold prioLe keyLex
    omega

instance : IsTrans Task prioLe where
  trans a b c := by
    unfold prioLe keyLex
    omega

/-- The due-date timestamp of a task: `new Date(dueDate).getTime()` is the
parameter `parseDate`; a missing date or an unparseable one (`NaN`) is
`none`, standing for positive infinity. -/
def dueTimestamp (parseDate : String → Option Int) (t : Task) : Option Int :=
  match t.dueDate with
  | none => none
  | some s => parseDate s

/-- Order on optional timestamps where `none` is positive infinity. -/
def tsLe (x y : Option Int) : Prop :=
  match x, y with
  | some u, some v => u ≤ v
  | some _, none => True
  | none, none => True
  | none, some _ => False

instance : DecidableRel tsLe := fun x y => by
  unfold tsLe
  rcases x with _ | u <;> rcases y with _ | v <;> infer_instance

/-- The due-date comparator of `getSortedTasks`: timestamp (missing or
unparseable last) first, `createdAt ?? 0` as tiebreak. -/
def dueLe (parseDate : String → Option Int) (a b : Task) : Prop :=
  (tsLe (dueTimestamp parseDate a) (dueTimestamp parseDate b)
      ∧ dueTimestamp parseDate a ≠ dueTimestamp parseDate b)
    ∨ (dueTimestamp parseDate a = dueTimestamp parseDate b
      ∧ a.createdAt ≤ b.createdAt)

instance (parseDate : String → Option Int) : DecidableRel (dueLe parseDate) :=
  fun a b => by
    unfold dueLe
    infer_instance

/-- `getSortedTasks` from `app.js`: a falsy or `"none"` key returns the list
as is; `"dueDate"` and `"priority"` sort a copy with their comparators
(`Array.prototype.sort` with a consistent comparator is the stable sort by
the comparator's preorder, embedded as `List.insertionSort`); any other key
returns the list as is. `parseDate` stands for `new Date(s).getTime()`. -/
def getSortedTasks (parseDate : String → Option Int) (tasks : List Task)
    (sort : String) : List Task :=
  if sort = "" || sort = "none" then tasks
  else if sort = "dueDate" then List.insertionSort (dueLe parseDate) tasks
  else if sort = "priority" then List.insertionSort prioLe tasks
  else tasks

/-- Escape one character as `JSON.stringify` does: quote and backslash get a
backslash escape, the control characters with short escapes get those, any
other control character becomes a `\u00xx` escape, and everything else is
emitted literally. -/
def escapeChar (c : Char) : List Char :=
  if c = '"' then ['\\', '"']
  else if c = '\\' then ['\\', '\\']
  else if c = '\x08' then ['\\', 'b']
  else if c = '\t' then ['\\', 't']
  else if c = '\n' then ['\\', 'n']
  else if c = '\x0c' then ['\\', 'f']
  else if c = '\r' then ['\\', 'r']
  else if c.toNat < 32 then
    ['\\', 'u', '0', '0', Nat.digitChar (c.toNat / 16), Nat.digitChar (c.toNat % 16)]
  else [c]

/-- Escape every character of a string body. -/
def escapeChars : List Char → List Char
  | [] => []
  | c :: cs => escapeChar c ++ escapeChars cs

/-- A JSON string literal: quote, escaped body, quote. -/
def quoteChars (l : List Char) : List Char :=
  '"' :: (escapeChars l ++ ['"'])

/-- Decimal digits of a natural number, most significant first
(fuel-structured so the kernel can evaluate it). -/
def printNatAux : Nat → Nat → List Char
  | 0, _ => []
  | fuel + 1, n =>
    if n < 10 then [Nat.digitChar n]
    else printNatAux fuel (n / 10) ++ [Nat.digitChar (n % 10)]

/-- Decimal numeral of a natural number. -/
def printNat (n : Nat) : List Char := printNatAux (n + 1) n

/-- Decimal numeral of an integer, as `JSON.stringify` prints integral
numbers. -/
def printInt : Int → List Char
  | .ofNat n => printNat n
  | .negSucc m => '-' :: printNat (m + 1)

mutual
/-- Model of `JSON.stringify` (character list output): no whitespace,
object members in property order, strings escaped by `escapeChar`. -/
def stringifyChars : Json → List Char
  | .null => "null".data
  | .bool true => "true".data
  | .bool false => "false".data
  | .num n => printInt n
  | .str s => quoteChars s.data
  | .arr xs => '[' :: (stringifyListChars xs ++ [']'])
  | .obj kvs => '\x7b' :: (stringifyFieldsChars kvs ++ ['\x7d'])
/-- Array elements joined by commas. -/
def stringifyListChars : JsonList → List Char
  | .nil => []
  | .cons j .nil => stringifyChars j
  | .cons j (.cons j2 tl) =>
    stringifyChars j ++ ',' :: stringifyListChars (.cons j2 tl)
/-- Object members `"key":value` joined by commas. -/
def stringifyFieldsChars : JsonFields → List Char
  | .nil => []
  | .cons k v .nil => quoteChars k.data ++ ':' :: stringifyChars v
  | .cons k v (.cons k2 v2 tl) =>
    quoteChars k.data ++ ':' :: stringifyChars v
      ++ ',' :: stringifyFieldsChars (.cons k2 v2 tl)
end

/-- Model of `JSON.stringify` producing a string. -/
def stringify (j : Json) : String := String.mk (stringifyChars j)

/-- JSON insignificant whitespace (space, tab, line feed, carriage return). -/
def jsonIsWs (c : Char) : Bool :=
  c = ' ' || c = '\t' || c = '\n' || c = '\r'

/-- Skip insignificant whitespace. -/
def skipWs : List Char → List Char
  | [] => []
  | c :: cs => if jsonIsWs c then skipWs cs else c :: cs

/-- Numeric value of a decimal digit character, if it is one. -/
def digitVal? (c : Char) : Option Nat :=
  if 48 ≤ c.toNat && c.toNat ≤ 57 then some (c.toNat - 48) else none

/-- Numeric value of a hexadecimal digit character, if it is one. -/
def hexVal? (c : Char) : Option Nat :=
  if 48 ≤ c.toNat && c.toNat ≤ 57 then some (c.toNat - 48)
  else if 97 ≤ c.toNat && c.toNat ≤ 102 then some (c.toNat - 87)
  else if 65 ≤ c.toNat && c.toNat ≤ 70 then some (c.toNat - 55)
  else none

/-- Greedily consume decimal digits, accumulating their value. -/
def parseDigitsAux : List Char → Nat → Nat × List Char
  | [], acc => (acc, [])
  | c :: cs, acc =>
    match digitVal? c with
    | some d => parseDigitsAux cs (acc * 10 + d)
    | none => (acc, c :: cs)

/-- Parse the digits of a JSON integer (no leading zero before another
digit, one digit at least). -/
def parseNumberNat : List Char → Option (Nat × List Char)
  | [] => none
  | c :: cs =>
    match digitVal? c with
    | none => none
    | some d =>
      if d = 0 then
        match cs with
        | c2 :: _ => if (digitVal? c2).isSome then none else some (0, cs)
        | [] => some (0, [])
      else some (parseDigitsAux cs d)

/-- Parse a JSON number (integral only: a fractional or exponent part, which
never arises for task data, is out of model and rejected). -/
def parseNumber (input : List Char) : Option (Int × List Char) :=
  match input with
  | [] => none
  | c :: cs =>
    let signed := c = '-'
    let body := if signed then cs else c :: cs
    match parseNumberNat body with
    | none => none
    | some (n, rest) =>
      match rest with
      | r :: _ =>
        if r = '.' || r = 'e' || r = 'E' then none
        else some (if signed then -(n : Int) else (n : Int), rest)
      | [] => some (if signed then -(n : Int) else (n : Int), [])

/-- Parse the body of a JSON string literal, after the opening quote:
literal characters up to the closing quote, with backslash escapes and
`\u` hexadecimal escapes decoded, and unescaped control characters
rejected. Returns the decoded body and the input after the closing
quote. -/
def parseStringBody : List Char → Option (List Char × List Char)
  | [] => none
  | c :: cs =>
    if c = '"' then some ([], cs)
    else if c = '\\' then
      match cs with
      | [] => none
      | e :: cs2 =>
        let esc : Option Char :=
          if e = '"' then some '"'
          else if e = '\\' then some '\\'
          else if e = '/' then some '/'
          else if e = 'b' then some '\x08'
          else if e = 'f' then some '\x0c'
          else if e = 'n' then some '\n'
          else if e = 'r' then some '\r'
          else if e = 't' then some '\t'
          else none
        match esc with
        | some ec => (parseStringBody cs2).map (fun r => (ec :: r.1, r.2))
        | none =>
          if e = 'u' then
            match cs2 with
            | h1 :: h2 :: h3 :: h4 :: cs3 =>
              match hexVal? h1, hexVal? h2, hexVal? h3, hexVal? h4 with
              | some a, some b, some c3, some d =>
                (parseStringBody cs3).map
                  (fun r => (Char.ofNat (((a * 16 + b) * 16 + c3) * 16 + d) :: r.1, r.2))
              | _, _, _, _ => none
            | _ => none
          else none
    else if c.toNat < 32 then none
    else (parseStringBody cs).map (fun r => (c :: r.1, r.2))

mutual
/-- Model of `JSON.parse` at a value position: skip whitespace, then
dispatch on the first character (fuel-structured for kernel evaluation;
the fuel only bounds nesting, never the number of characters consumed). -/
def parseVal : Nat → List Char → Option (Json × List Char)
  | 0, _ => none
  | fuel + 1, input =>
    match skipWs input with
    | [] => none
    | c :: cs =>
      if c = 'n' then
        match cs with
        | 'u' :: 'l' :: 'l' :: rest => some (.null, rest)
        | _ => none
      else if c = 't' then
        match cs with
        | 'r' :: 'u' :: 'e' :: rest => some (.bool true, rest)
        | _ => none
      else if c = 'f' then
        match cs with
        | 'a' :: 'l' :: 's' :: 'e' :: rest => some (.bool false, rest)
        | _ => none
      else if c = '"' then
        (parseStringBody cs).map (fun r => (.str (String.mk r.1), r.2))
      else if c = '[' then
        (parseArrItems fuel (skipWs cs)).map (fun r => (Json.arr r.1, r.2))
      else if c = '\x7b' then
        (parseObjItems fuel (skipWs cs)).map (fun r => (Json.obj r.1, r.2))
      else
        (parseNumber (c :: cs)).map (fun r => (Json.num r.1, r.2))
/-- After an opening bracket (whitespace skipped): a closing bracket or a
first element followed by the element tail. -/
def parseArrItems : Nat → List Char → Option (JsonList × List Char)
  | 0, _ => none
  | fuel + 1, input =>
    match input with
    | [] => none
    | c :: rest =>
      if c = ']' then some (.nil, rest)
      else
        (parseVal fuel (c :: rest)).bind (fun jr =>
          (parseArrRest fuel (skipWs jr.2)).map (fun tr => (JsonList.cons jr.1 tr.1, tr.2)))
/-- After an array element (whitespace skipped): a closing bracket, or a
comma and a further element. -/
def parseArrRest : Nat → List Char → Option (JsonList × List Char)
  | 0, _ => none
  | fuel + 1, input =>
    match input with
    | [] => none
    | c :: rest =>
      if c = ']' then some (.nil, rest)
      else if c = ',' then
        (parseVal fuel rest).bind (fun jr =>
          (parseArrRest fuel (skipWs jr.2)).map (fun tr => (JsonList.cons jr.1 tr.1, tr.2)))
      else none
/-- After an opening brace (whitespace skipped): a closing brace or a first
member followed by the member tail. -/
def parseObjItems : Nat → List Char → Option (JsonFields × List Char)
  | 0, _ => none
  | fuel + 1, input =>
    match input with
    | [] => none
    | c :: rest =>
      if c = '\x7d' then some (.nil, rest)
      else parseMember fuel (c :: rest)
/-- One object member: a string key, a colon, a value, then the member
tail. -/
def parseMember : Nat → List Char → Option (JsonFields × List Char)
  | 0, _ => none
  | fuel + 1, input =>
    match input with
    | '"' :: cs =>
      (parseStringBody cs).bind (fun kr =>
        match skipWs kr.2 with
        | ':' :: rest2 =>
          (parseVal fuel rest2).bind (fun vr =>
            (parseObjRest fuel (skipWs vr.2)).map
              (fun tr => (JsonFields.cons (String.mk kr.1) vr.1 tr.1, tr.2)))
        | _ => none)
    | _ => none
/-- After an object member (whitespace skipped): a closing brace, or a comma
and a further member. -/
def parseObjRest : Nat → List Char → Option (JsonFields × List Char)
  | 0, _ => none
  | fuel + 1, input =>
    match input with
    | [] => none
    | c :: rest =>
      if c = '\x7d' then some (.nil, rest)
      else if c = ',' then parseMember fuel (skipWs rest)
      else none
end

/-- Model of `JSON.parse`: parse one value and require that only whitespace
follows; `none` models a thrown `SyntaxError`. The fuel `2 * length + 2`
dominates the nesting depth of any input that parses. -/
def parseJson (s : String) : Option Json :=
  match parseVal (2 * s.data.length + 2) s.data with
  | some (j, rest) => if skipWs rest = [] then some j else none
  | none => none

mutual
/-- Fuel needed by `parseVal` for a value (nesting measure). -/
def sizeJ : Json → Nat
  | .arr xs => sizeL xs + 1
  | .obj kvs => sizeF kvs + 1
  | _ => 1
/-- Fuel needed by `parseArrItems`/`parseArrRest` for array elements. -/
def sizeL : JsonList → Nat
  | .nil => 1
  | .cons j tl => sizeJ j + sizeL tl + 1
/-- Fuel needed by `parseObjItems`/`parseMember`/`parseObjRest` for object
members. -/
def sizeF : JsonFields → Nat
  | .nil => 1
  | .cons _ v tl => sizeJ v + sizeF tl + 2
end

/-- A list that may legally follow a JSON numeral in a larger text without
extending it: its head, if any, is no digit and no fraction/exponent
starter. Every delimiter emitted by `stringifyChars` qualifies. -/
def numTailOk (l : List Char) : Prop :=
  ∀ c, l.head? = some c → digitVal? c = none ∧ c ≠ '.' ∧ c ≠ 'e' ∧ c ≠ 'E'

/-- The characters emitted after the first element of an array body:
nothing when it was the last element, a comma and the remaining elements
otherwise. -/
def arrSepChars : JsonList → List Char
  | .nil => []
  | .cons j tl => ',' :: stringifyListChars (.cons j tl)

/-- The characters emitted after the first member of an object body. -/
def objSepChars : JsonFields → List Char
  | .nil => []
  | .cons k v tl => ',' :: stringifyFieldsChars (.cons k v tl)

/-- A list of strings as a JSON array. -/
def strListToJson : List String → JsonList
  | [] => .nil
  | s :: tl => .cons (.str s) (strListToJson tl)

/-- An optional string as a JSON value (`none` is the stored `null`). -/
def optStrToJson : Option String → Json
  | none => .null
  | some s => .str s

/-- The JSON value `JSON.stringify` sees for a task record: the seven
properties set by `addTask` in creation order, plus `updatedAt` when a
mutation has stamped it (spread-merge appends new properties last). -/
def encodeTask (t : Task) : Json :=
  .obj (.cons "id" (.str t.id)
    (.cons "text" (.str t.text)
      (.cons "done" (.bool t.done)
        (.cons "createdAt" (.num (Int.ofNat t.createdAt))
          (.cons "dueDate" (optStrToJson t.dueDate)
            (.cons "priority" (optStrToJson t.priority)
              (.cons "tags" (.arr (strListToJson t.tags))
                (match t.updatedAt with
                | none => .nil
                | some n => .cons "updatedAt" (.num (Int.ofNat n)) .nil))))))))

/-- A task list as the JSON array elements of its encoded records. -/
def encodeTasksList : List Task → JsonList
  | [] => .nil
  | t :: tl => .cons (encodeTask t) (encodeTasksList tl)

/-- A task list as the JSON value `JSON.stringify` receives. -/
def encodeTasks (tasks : List Task) : Json :=
  .arr (encodeTasksList tasks)

/-- Read back a JSON array of strings, the inverse of `strListToJson`. -/
def strListFromJson : JsonList → Option (List String)
  | .nil => some []
  | .cons (.str s) tl => (strListFromJson tl).map (fun l => s :: l)
  | .cons _ _ => none

/-- Read back an optional string, the inverse of `optStrToJson`. -/
def optStrFromJson : Json → Option (Option String)
  | .null => some none
  | .str s => some (some s)
  | _ => none

/-- Read a task record back out of its JSON encoding; yields `some` exactly
on images of `encodeTask`, which makes it the witness that a parsed value is
deep-equal to the saved record. -/
def taskFromJson : Json → Option Task
  | .obj (.cons "id" (.str id) (.cons "text" (.str text) (.cons "done" (.bool done)
      (.cons "createdAt" (.num (.ofNat createdAt)) (.cons "dueDate" dd
        (.cons "priority" pr (.cons "tags" (.arr tagsJ) upd))))))) =>
    match optStrFromJson dd, optStrFromJson pr, strListFromJson tagsJ, upd with
    | some dueDate, some priority, some tags, .nil =>
      some ⟨id, text, done, createdAt, dueDate, priority, tags, none⟩
    | some dueDate, some priority, some tags, .cons "updatedAt" (.num (.ofNat u)) .nil =>
      some ⟨id, text, done, createdAt, dueDate, priority, tags, some u⟩
    | _, _, _, _ => none
  | _ => none

/-- Read back every record of a JSON array of tasks. -/
def tasksFromJsonList : JsonList → Option (List Task)
  | .nil => some []
  | .cons j tl =>
    match taskFromJson j, tasksFromJsonList tl with
    | some t, some ts => some (t :: ts)
    | _, _ => none

/-- Read a task list back out of its JSON encoding. -/
def tasksFromJson : Json → Option (List Task)
  | .arr xs => tasksFromJsonList xs
  | _ => none

/-- The `localStorage` key of the task list (`store.js`). -/
def LIST_ITEMS_LOCAL_STORAGE : String := "listItems"

/-- The textual key-value store behind the persistence adapter. `data` is
the stored bindings (later bindings shadow earlier ones); `readFails` makes
`getItem` throw and `writeFails` makes `setItem` throw (storage unavailable,
quota exceeded). -/
structure Store where
  data : List (String × String)
  readFails : Bool
  writeFails : Bool

/-- A store with no bindings and no failures. -/
def emptyStore : Store := ⟨[], false, false⟩

/-- First binding of a key, if any. -/
def storeGet (st : Store) (k : String) : Option String :=
  (st.data.find? (fun p => p.1 = k)).map (fun p => p.2)

/-- Bind a key (shadowing any previous binding). -/
def storeSet (st : Store) (k v : String) : Store :=
  { st with data := (k, v) :: st.data }

/-- `localStorage.getItem`: the stored string, `none` for a missing key,
`Except.error` when the storage throws. -/
def getItem (st : Store) (k : String) : Except Unit (Option String) :=
  if st.readFails then .error () else .ok (storeGet st k)

/-- `localStorage.setItem`: the updated store, `Except.error` when the
storage throws (for example quota exceeded). -/
def setItem (st : Store) (k v : String) : Except Unit Store :=
  if st.writeFails then .error () else .ok (storeSet st k v)

/-- `saveTasks` from `store.js`:
`localStorage.setItem(LIST_ITEMS_LOCAL_STORAGE, JSON.stringify(tasks))`,
with no try/catch around it, so a `setItem` exception propagates. -/
def saveTasks (tasks : List Task) (st : Store) : Except Unit Store :=
  setItem st LIST_ITEMS_LOCAL_STORAGE (stringify (encodeTasks tasks))

/-- `loadTasks` from `store.js`: inside try/catch, fetch the stored string
and return `JSON.parse` of it when the string is truthy, `[]` when the key
is missing or the string is empty; any exception (storage unavailable,
malformed JSON) is caught, logged, and turned into `[]`. The result is
whatever value parsed — no array shape check is performed. -/
def loadTasks (st : Store) : Json :=
  match getItem st LIST_ITEMS_LOCAL_STORAGE with
  | .error _ => .arr .nil
  | .ok none => .arr .nil
  | .ok (some s) =>
    if s = "" then .arr .nil
    else
      match parseJson s with
      | some j => j
      | none => .arr .nil

/-- Addresses of heap-allocated task objects. -/
abbrev Addr := Nat

/-- A heap of task objects: the address of an object is its index, and
allocation appends. In this embedding every JavaScript object creation
(`{ ... }` literals and spreads) is an allocation, so mutating an existing
object in place would be visible as a change at an existing address. -/
abbrev Heap := List Task

/-- Placeholder record for reads of invalid addresses (never reached under
the validity hypotheses used below). -/
def defaultTask : Task := ⟨"", "", false, 0, none, none, [], none⟩

/-- Dereference an address. -/
def readH (h : Heap) (a : Addr) : Task := h.getD a defaultTask

/-- Allocate a fresh object, returning the new heap and its address. -/
def allocH (h : Heap) (t : Task) : Heap × Addr := (h ++ [t], h.length)

/-- Heap-instrumented `addTask`: allocate the new task object and append its
address to a new reference list (`[...tasks, new]`). -/
def addTaskH (h : Heap) (refs : List Addr) (text : String)
    (dueDate priority : Option String) (tags : Json) (freshId : String)
    (now : Nat) : Heap × List Addr :=
  let al := allocH h (mkNewTask freshId now text dueDate priority tags)
  (al.1, refs ++ [al.2])

/-- Heap-instrumented `deleteTask`: `filter` builds a new reference list and
allocates nothing. -/
def deleteTaskH (h : Heap) (refs : List Addr) (id : String) : Heap × List Addr :=
  (h, refs.filter (fun a => (readH h a).id ≠ id))

/-- Heap-instrumented `toggleTaskStatus`: `map` walks the references in
order; a match allocates a fresh spread copy with `done` flipped and
`updatedAt` stamped, a non-match keeps the original address. -/
def toggleTaskStatusH (h : Heap) (refs : List Addr) (id : String) (now : Nat) :
    Heap × List Addr :=
  match refs with
  | [] => (h, [])
  | a :: rest =>
    let t := readH h a
    if t.id = id then
      let al := allocH h { t with done := !t.done, updatedAt := some now }
      let r := toggleTaskStatusH al.1 rest id now
      (r.1, al.2 :: r.2)
    else
      let r := toggleTaskStatusH h rest id now
      (r.1, a :: r.2)

/-- Heap-instrumented `updateTask`: a match allocates a fresh spread-merged
copy, a non-match keeps the original address. -/
def updateTaskH (h : Heap) (refs : List Addr) (id : String) (fields : TaskPatch) :
    Heap × List Addr :=
  match refs with
  | [] => (h, [])
  | a :: rest =>
    let t := readH h a
    if t.id = id then
      let al := allocH h (applyPatch t fields)
      let r := updateTaskH al.1 rest id fields
      (r.1, al.2 :: r.2)
    else
      let r := updateTaskH h rest id fields
      (r.1, a :: r.2)

/-- A heap extends another when every already-allocated object is unchanged
(new objects may have been appended). -/
def heapExtends (h h2 : Heap) : Prop :=
  h.length ≤ h2.length ∧ ∀ i, i < h.length → h2[i]? = h[i]?

theorem dropTrailingWs_cons (c : Char) (l : List Char) :
    dropTrailingWs (c :: l)
      = if ((dropTrailingWs l).isEmpty && jsIsWs c) = true then []
        else c :: dropTrailingWs l := rfl

theorem dropTrailingWs_idem (l : List Char) :
    dropTrailingWs (dropTrailingWs l) = dropTrailingWs l := by
  induction l with
  | nil => rfl
  | cons c l ih =>
    rw [dropTrailingWs_cons]
    by_cases h : ((dropTrailingWs l).isEmpty && jsIsWs c) = true
    · rw [if_pos h]; rfl
    · rw [if_neg h, dropTrailingWs_cons, ih, if_neg h]

theorem head?_dropTrailingWs (l : List Char) (c : Char)
    (h : (dropTrailingWs l).head? = some c) : l.head? = some c := by
  cases l with
  | nil => simp [dropTrailingWs] at h
  | cons a l =>
    rw [dropTrailingWs_cons] at h
    by_cases hc : ((dropTrailingWs l).isEmpty && jsIsWs a) = true
    · rw [if_pos hc] at h; simp at h
    · rw [if_neg hc] at h
      simp only [List.head?_cons, Option.some.injEq] at h ⊢
      exact h

theorem jsTrimChars_idem (l : List Char) :
    jsTrimChars (jsTrimChars l) = jsTrimChars l := by
  unfold jsTrimChars
  have h1 : (dropTrailingWs (l.dropWhile jsIsWs)).dropWhile jsIsWs
      = dropTrailingWs (l.dropWhile jsIsWs) := by
    cases hdt : dropTrailingWs (l.dropWhile jsIsWs) with
    | nil => rfl
    | cons c r =>
      have hc : (l.dropWhile jsIsWs).head? = some c :=
        head?_dropTrailingWs _ _ (by rw [hdt]; rfl)
      have hnot := List.head?_dropWhile_not jsIsWs l
      rw [hc] at hnot
      simp only [List.dropWhile_cons]
      rw [hnot]
      simp
  rw [h1, dropTrailingWs_idem]

theorem jsTrim_idem (s : String) : jsTrim (jsTrim s) = jsTrim s := by
  unfold jsTrim
  have hdata : (String.mk (jsTrimChars s.data)).data = jsTrimChars s.data := rfl
  rw [hdata, jsTrimChars_idem]

/-- C4: for every list and every identifier not present in it, each of
`deleteTask`, `toggleTaskStatus` and `updateTask` returns the list
unchanged; the embedded functions are total, so no error is possible. -/
theorem mutators_missing_id_noop
    (L : List Task) (id : String) (now : Nat) (p : TaskPatch)
    (h : ∀ t ∈ L, t.id ≠ id) :
    deleteTask L id = L ∧ toggleTaskStatus L id now = L ∧ updateTask L id p = L := by
  refine ⟨?_, ?_, ?_⟩
  · rw [deleteTask]
    apply List.filter_eq_self.mpr
    intro t ht
    simpa using h t ht
  · rw [toggleTaskStatus]
    have hmap : L.map (fun t =>
        if t.id = id then { t with done := !t.done, updatedAt := some now } else t)
        = L.map (fun t => t) := by
      apply List.map_congr_left
      intro t ht
      exact if_neg (h t ht)
    rw [hmap, List.map_id']
  · rw [updateTask]
    have hmap : L.map (fun t => if t.id = id then applyPatch t p else t)
        = L.map (fun t => t) := by
      apply List.map_congr_left
      intro t ht
      exact if_neg (h t ht)
    rw [hmap, List.map_id']

/-- C4 witness: a concrete two-task list and an absent identifier. -/
theorem mutators_missing_id_noop_witness :
    (∀ t ∈ [(⟨"1", "a", false, 0, none, none, [], none⟩ : Task)], t.id ≠ "zz")
    ∧ deleteTask [⟨"1", "a", false, 0, none, none, [], none⟩] "zz"
        = [⟨"1", "a", false, 0, none, none, [], none⟩]
    ∧ toggleTaskStatus [⟨"1", "a", false, 0, none, none, [], none⟩] "zz" 7
        = [⟨"1", "a", false, 0, none, none, [], none⟩]
    ∧ updateTask [⟨"1", "a", false, 0, none, none, [], none⟩] "zz" {}
        = [⟨"1", "a", false, 0, none, none, [], none⟩] := by
  have h : ∀ t ∈ [(⟨"1", "a", false, 0, none, none, [], none⟩ : Task)], t.id ≠ "zz" := by
    decide
  exact ⟨h, mutators_missing_id_noop _ "zz" 7 {} h⟩

/-- C7 counterexample: `addTask` stores `text.trim()` without any emptiness
check, so a whitespace-only text yields a task whose text is empty after
trimming. -/
theorem addTask_keeps_blank_text :
    ¬ (∀ t ∈ addTask [] "   " none none Json.null "id-0" 0, jsTrim t.text ≠ "") := by
  decide

/-- C7 (amended): the non-blank-text invariant holds under the conditions
the UI layer guarantees — every existing text non-blank, the added text
non-blank after trimming, and any text set by an update patch non-blank
after trimming. -/
theorem task_text_nonblank_preserved
    (L : List Task) (text : String) (dueDate priority : Option String)
    (tags : Json) (freshId : String) (now : Nat) (id : String) (p : TaskPatch)
    (hL : ∀ t ∈ L, jsTrim t.text ≠ "")
    (htext : jsTrim text ≠ "")
    (hp : ∀ s, p.text = some s → jsTrim s ≠ "") :
    (∀ t ∈ addTask L text dueDate priority tags freshId now, jsTrim t.text ≠ "")
    ∧ (∀ t ∈ updateTask L id p, jsTrim t.text ≠ "") := by
  constructor
  · intro t ht
    rw [addTask, List.mem_append] at ht
    rcases ht with ht | ht
    · exact hL t ht
    · simp only [List.mem_singleton] at ht
      subst ht
      show jsTrim (jsTrim text) ≠ ""
      rw [jsTrim_idem]
      exact htext
  · intro t ht
    rw [updateTask] at ht
    rcases List.mem_map.mp ht with ⟨u, hu, rfl⟩
    by_cases hid : u.id = id
    · rw [if_pos hid]
      show jsTrim (p.text.getD u.text) ≠ ""
      cases hcase : p.text with
      | none => simpa using hL u hu
      | some s => simpa using hp s hcase
    · rw [if_neg hid]
      exact hL u hu

/-- C7 witness: concrete non-blank inputs for the amended invariant. -/
theorem task_text_nonblank_preserved_witness :
    (∀ t ∈ addTask [⟨"1", "a", false, 0, none, none, [], none⟩] " b "
        none none Json.null "2" 1, jsTrim t.text ≠ "")
    ∧ (∀ t ∈ updateTask [⟨"1", "a", false, 0, none, none, [], none⟩] "1"
        { text := some "c" }, jsTrim t.text ≠ "") :=
  task_text_nonblank_preserved [⟨"1", "a", false, 0, none, none, [], none⟩]
    " b " none none Json.null "2" 1 "1" { text := some "c" }
    (by decide) (by decide) (by decide)

theorem specDedupCI_nil : specDedupCI [] = [] := by
  rw [specDedupCI]

theorem specDedupCI_cons (x : String) (xs : List String) :
    specDedupCI (x :: xs)
      = x :: specDedupCI (xs.filter (fun y => jsToLower y ≠ jsToLower x)) := by
  rw [specDedupCI]

/-- The seen-set loop of the source `normalizeTags` computes the spec-side
filter-then-dedup pipeline, relative to the keys already seen. -/
theorem normalizeTagsLoop_eq :
    ∀ (xs : JsonList) (seen : List String),
      normalizeTagsLoop xs seen
        = specDedupCI ((tagCands xs).filter (fun s => jsToLower s ∉ seen))
  | .nil, seen => by
    simp [normalizeTagsLoop, tagCands, specDedupCI_nil]
  | .cons c tl, seen => by
    cases c with
    | str s =>
      rw [normalizeTagsLoop]
      by_cases hempty : jsTrim s = ""
      · rw [if_pos hempty, tagCands, if_pos hempty, normalizeTagsLoop_eq tl seen]
      · rw [if_neg hempty, tagCands, if_neg hempty]
        by_cases hseen : jsToLower (jsTrim s) ∈ seen
        · rw [if_pos hseen]
          rw [List.filter_cons_of_neg (by simpa using hseen)]
          exact normalizeTagsLoop_eq tl seen
        · rw [if_neg hseen]
          rw [List.filter_cons_of_pos (by simpa using hseen)]
          rw [specDedupCI_cons, List.filter_filter]
          rw [normalizeTagsLoop_eq tl (jsToLower (jsTrim s) :: seen)]
          congr 1
          congr 1
          apply List.filter_congr
          intro y _
          simp only [List.mem_cons, decide_not]
          by_cases h1 : jsToLower y = jsToLower (jsTrim s) <;>
            by_cases h2 : jsToLower y ∈ seen <;> simp [h1, h2]
    | null => exact normalizeTagsLoop_eq tl seen
    | bool b => exact normalizeTagsLoop_eq tl seen
    | num n => exact normalizeTagsLoop_eq tl seen
    | arr ys => exact normalizeTagsLoop_eq tl seen
    | obj kvs => exact normalizeTagsLoop_eq tl seen

/-- The source tag normalization equals the spec-side pipeline. -/
theorem normalizeTags_eq_spec (tags : Json) :
    normalizeTags tags = specNormalizeTags tags := by
  cases tags with
  | arr xs =>
    rw [normalizeTags, specNormalizeTags, normalizeTagsLoop_eq xs []]
    congr 1
    simp
  | null => rfl
  | bool b => rfl
  | num n => rfl
  | str s => rfl
  | obj kvs => rfl

/-- C2: the task appended by `addTask` carries exactly the spec-described
normalization of the given tags (each entry trimmed, empties and
non-strings dropped, case-insensitive dedup keeping the first occurrence's
casing), and omitted `dueDate`/`priority`/`tags` default to `null`, `null`
and the empty list. -/
theorem addTask_appends_normalized_task
    (tasks : List Task) (text : String) (dueDate priority : Option String)
    (tags : Json) (freshId : String) (now : Nat) :
    addTask tasks text dueDate priority tags freshId now
      = tasks ++ [⟨freshId, jsTrim text, false, now, dueDate, priority,
          specNormalizeTags tags, none⟩]
    ∧ addTask tasks text none none Json.null freshId now
      = tasks ++ [⟨freshId, jsTrim text, false, now, none, none, [], none⟩] := by
  constructor
  · rw [addTask, mkNewTask, normalizeTags_eq_spec]
  · rw [addTask, mkNewTask]
    rfl

/-- C6 counterexample: `updateTask` shallow-merges an arbitrary partial
record, so a patch carrying an `id` both changes an existing task's
identifier and collides it with another task's. -/
theorem updateTask_can_change_and_collide_ids :
    (updateTask [⟨"1", "a", false, 0, none, none, [], none⟩,
        ⟨"2", "b", false, 0, none, none, [], none⟩] "1"
        { id := some "2" }).map Task.id = ["2", "2"]
    ∧ ¬ ((updateTask [⟨"1", "a", false, 0, none, none, [], none⟩,
        ⟨"2", "b", false, 0, none, none, [], none⟩] "1"
        { id := some "2" }).map Task.id).Nodup := by
  constructor
  · rfl
  · decide

/-- C6 (amended): identifiers are stable and stay pairwise distinct under
`addTask` (granted the `crypto.randomUUID` freshness contract),
`deleteTask`, `toggleTaskStatus`, and `updateTask` for patches that do not
carry an `id` field. -/
theorem task_ids_stable_and_unique
    (L : List Task) (text : String) (dueDate priority : Option String)
    (tags : Json) (freshId : String) (now : Nat) (id : String) (p : TaskPatch)
    (hnd : (L.map Task.id).Nodup) (hfresh : freshId ∉ L.map Task.id)
    (hpid : p.id = none) :
    ((addTask L text dueDate priority tags freshId now).map Task.id
        = L.map Task.id ++ [freshId]
      ∧ ((addTask L text dueDate priority tags freshId now).map Task.id).Nodup)
    ∧ ((deleteTask L id).map Task.id = (L.map Task.id).filter (fun s => s ≠ id)
      ∧ ((deleteTask L id).map Task.id).Nodup)
    ∧ ((toggleTaskStatus L id now).map Task.id = L.map Task.id
      ∧ ((toggleTaskStatus L id now).map Task.id).Nodup)
    ∧ ((updateTask L id p).map Task.id = L.map Task.id
      ∧ ((updateTask L id p).map Task.id).Nodup) := by
  have hdel : (deleteTask L id).map Task.id = (L.map Task.id).filter (fun s => s ≠ id) := by
    clear hnd hfresh
    induction L with
    | nil => rfl
    | cons a L ih =>
      simp only [deleteTask] at ih ⊢
      by_cases h : a.id = id
      · rw [List.filter_cons_of_neg (by simp [h]), List.map_cons,
          List.filter_cons_of_neg (by simp [h])]
        exact ih
      · rw [List.filter_cons_of_pos (by simp [h]), List.map_cons, List.map_cons,
          List.filter_cons_of_pos (by simp [h])]
        rw [ih]
  have htog : (toggleTaskStatus L id now).map Task.id = L.map Task.id := by
    rw [toggleTaskStatus, List.map_map]
    apply List.map_congr_left
    intro t _
    by_cases h : t.id = id
    · simp [Function.comp, h]
    · simp [Function.comp, h]
  have hupd : (updateTask L id p).map Task.id = L.map Task.id := by
    rw [updateTask, List.map_map]
    apply List.map_congr_left
    intro t _
    by_cases h : t.id = id
    · simp [Function.comp, h, applyPatch, hpid]
    · simp [Function.comp, h]
  refine ⟨⟨?_, ?_⟩, ⟨hdel, ?_⟩, ⟨htog, ?_⟩, ⟨hupd, ?_⟩⟩
  · rw [addTask, List.map_append]
    rfl
  · rw [addTask, List.map_append]
    have : (List.map Task.id [mkNewTask freshId now text dueDate priority tags])
        = [freshId] := rfl
    rw [this]
    simp only [List.nodup_append, List.nodup_cons, List.not_mem_nil,
      not_false_iff, List.nodup_nil, and_true, true_and]
    refine ⟨hnd, ?_⟩
    intro a ha
    simp only [List.mem_singleton]
    intro hEq
    exact hfresh (hEq ▸ ha)
  · rw [hdel]
    exact hnd.filter _
  · rw [htog]; exact hnd
  · rw [hupd]; exact hnd

/-- C6 witness: a two-task list with distinct identifiers, a fresh
identifier, and an id-free patch. -/
theorem task_ids_stable_and_unique_witness :
    ((addTask [⟨"1", "a", false, 0, none, none, [], none⟩,
        ⟨"2", "b", false, 0, none, none, [], none⟩] "c" none none Json.null
        "3" 9).map Task.id = ["1", "2", "3"]
      ∧ (["1", "2", "3"] : List String).Nodup) := by
  have h := task_ids_stable_and_unique
    [⟨"1", "a", false, 0, none, none, [], none⟩,
      ⟨"2", "b", false, 0, none, none, [], none⟩]
    "c" none none Json.null "3" 9 "zz" {}
    (by decide) (by decide) rfl
  exact ⟨h.1.1, by decide⟩

/-- C10: on a list with several tasks bearing the same identifier,
`deleteTask` removes them all and keeps everything else (in order),
while `toggleTaskStatus` and `updateTask` rewrite precisely the matching
positions (flip plus `updatedAt` stamp, resp. spread-merge) and keep every
other position untouched. -/
theorem mutators_act_on_every_match
    (L : List Task) (id : String) (now : Nat) (p : TaskPatch) :
    (∀ t ∈ deleteTask L id, t.id ≠ id)
    ∧ (∀ t : Task, t.id ≠ id → (deleteTask L id).count t = L.count t)
    ∧ List.Sublist (deleteTask L id) L
    ∧ (∀ i : Nat, (toggleTaskStatus L id now)[i]?
        = (L[i]?).map (fun t =>
            if t.id = id then { t with done := !t.done, updatedAt := some now } else t))
    ∧ (∀ i : Nat, (updateTask L id p)[i]?
        = (L[i]?).map (fun t => if t.id = id then applyPatch t p else t)) := by
  refine ⟨?_, ?_, ?_, ?_, ?_⟩
  · intro t ht
    have := List.of_mem_filter ht
    simpa using this
  · intro t ht
    rw [deleteTask]
    induction L with
    | nil => rfl
    | cons a L ih =>
      by_cases ha : a.id = id
      · rw [List.filter_cons_of_neg (by simp [ha])]
        have hne : (a == t) = false := by
          apply beq_eq_false_iff_ne.mpr
          intro hEq
          exact ht (by rw [← hEq]; exact ha)
        rw [ih, List.count_cons, hne]
        simp
      · rw [List.filter_cons_of_pos (by simp [ha])]
        rw [List.count_cons, List.count_cons, ih]
  · exact List.filter_sublist L
  · intro i
    rw [toggleTaskStatus, List.getElem?_map]
  · intro i
    rw [updateTask, List.getElem?_map]

/-- C10 witness: a list with a duplicated identifier, showing deletion of
both copies and per-position toggling of both copies. -/
theorem mutators_act_on_every_match_witness :
    ((⟨"x", "z", true, 5, none, none, [], none⟩ : Task).id ≠ "1"
      ∧ (deleteTask [⟨"1", "a", false, 0, none, none, [], none⟩,
          ⟨"1", "b", true, 1, none, none, [], none⟩] "1").count
          ⟨"x", "z", true, 5, none, none, [], none⟩
        = ([⟨"1", "a", false, 0, none, none, [], none⟩,
          ⟨"1", "b", true, 1, none, none, [], none⟩] : List Task).count
          ⟨"x", "z", true, 5, none, none, [], none⟩)
    ∧ (toggleTaskStatus [⟨"1", "a", false, 0, none, none, [], none⟩,
        ⟨"1", "b", true, 1, none, none, [], none⟩] "1" 9)[1]?
      = some ⟨"1", "b", false, 1, none, none, [], some 9⟩ := by
  constructor
  · refine ⟨by decide, ?_⟩
    exact (mutators_act_on_every_match
      [⟨"1", "a", false, 0, none, none, [], none⟩,
        ⟨"1", "b", true, 1, none, none, [], none⟩] "1" 9 {}).2.1
      ⟨"x", "z", true, 5, none, none, [], none⟩ (by decide)
  · have h := (mutators_act_on_every_match
      [⟨"1", "a", false, 0, none, none, [], none⟩,
        ⟨"1", "b", true, 1, none, none, [], none⟩] "1" 9 {}).2.2.2.1 1
    rw [h]
    rfl

theorem keyLex_not (p q : Nat × Nat) (h : ¬ keyLex p q) : keyLex q p ∧ p ≠ q := by
  unfold keyLex at *
  constructor
  · omega
  · intro hEq
    rw [hEq] at h
    exact h (Or.inr ⟨rfl, le_refl _⟩)

/-- Inserting a task whose key differs from `k` leaves the `k`-keyed
subsequence unchanged. -/
theorem filter_orderedInsert_ne (x : Task) (l : List Task) (k : Nat × Nat)
    (hx : prioKey x ≠ k) :
    (l.orderedInsert prioLe x).filter (fun t => prioKey t == k)
      = l.filter (fun t => prioKey t == k) := by
  induction l with
  | nil => simp [List.orderedInsert, hx]
  | cons y ys ih =>
    rw [List.orderedInsert]
    by_cases h : prioLe x y
    · rw [if_pos h, List.filter_cons_of_neg (by simp [hx])]
    · rw [if_neg h, List.filter_cons, List.filter_cons, ih]

/-- Inserting a task into a sorted list puts it in front of the equally
keyed tasks already present (the inserted task comes from earlier in the
original list, so this is exactly stability). -/
theorem filter_orderedInsert_eq :
    ∀ (l : List Task), List.Sorted prioLe l → ∀ x : Task,
      (l.orderedInsert prioLe x).filter (fun t => prioKey t == prioKey x)
        = x :: l.filter (fun t => prioKey t == prioKey x)
  | [], _, x => by simp [List.orderedInsert]
  | y :: ys, hs, x => by
    rw [List.orderedInsert]
    by_cases h : prioLe x y
    · rw [if_pos h, List.filter_cons_of_pos (by simp)]
    · rw [if_neg h]
      have hne : prioKey y ≠ prioKey x := by
        have hk := keyLex_not (prioKey x) (prioKey y) h
        exact fun hEq => hk.2 hEq.symm
      rw [List.filter_cons_of_neg (by simp [hne]),
        List.filter_cons_of_neg (by simp [hne])]
      exact filter_orderedInsert_eq ys hs.of_cons x

/-- Filter-characterized stability of the embedded sort: for every key, the
subsequence of tasks with that key is exactly the one of the input. -/
theorem insertionSort_stable_filter (L : List Task) (k : Nat × Nat) :
    (List.insertionSort prioLe L).filter (fun t => prioKey t == k)
      = L.filter (fun t => prioKey t == k) := by
  induction L with
  | nil => rfl
  | cons x xs ih =>
    rw [List.insertionSort]
    by_cases hk : prioKey x = k
    · subst hk
      rw [filter_orderedInsert_eq _ (List.sorted_insertionSort prioLe xs) x]
      rw [ih, List.filter_cons_of_pos (by simp)]
    · rw [filter_orderedInsert_ne x _ k hk, ih,
        List.filter_cons_of_neg (by simp [hk])]

/-- C9: sorting by priority permutes the list into one that is sorted by
the lexicographic key (fixed rank `high 0 < medium 1 < low 2 <
unrecognized/missing 3`, then ascending `createdAt`), and is stable: for
every key the subsequence of tasks carrying that key is unchanged, so tasks
tying on rank appear in ascending `createdAt` order and full ties keep
their original relative order. The function returns a new list (the source
sorts a spread copy); under the `"none"` key the input comes back as is. -/
theorem getSortedTasks_priority_spec (parseDate : String → Option Int)
    (L : List Task) :
    List.Perm (getSortedTasks parseDate L "priority") L
    ∧ List.Sorted prioLe (getSortedTasks parseDate L "priority")
    ∧ (∀ k : Nat × Nat,
        (getSortedTasks parseDate L "priority").filter (fun t => prioKey t == k)
          = L.filter (fun t => prioKey t == k))
    ∧ getSortedTasks parseDate L "none" = L := by
  have hpri : getSortedTasks parseDate L "priority" = List.insertionSort prioLe L := rfl
  have hnone : getSortedTasks parseDate L "none" = L := rfl
  refine ⟨?_, ?_, ?_, hnone⟩
  · rw [hpri]
    exact List.perm_insertionSort prioLe L
  · rw [hpri]
    exact List.sorted_insertionSort prioLe L
  · intro k
    rw [hpri]
    exact insertionSort_stable_filter L k

theorem heapExtends_refl (h : Heap) : heapExtends h h :=
  ⟨le_refl _, fun _ _ => rfl⟩

theorem heapExtends_trans {h1 h2 h3 : Heap} (a : heapExtends h1 h2)
    (b : heapExtends h2 h3) : heapExtends h1 h3 :=
  ⟨le_trans a.1 b.1, fun i hi => by rw [b.2 i (lt_of_lt_of_le hi a.1), a.2 i hi]⟩

theorem heapExtends_append (h ext : Heap) : heapExtends h (h ++ ext) := by
  refine ⟨by simp, fun i hi => ?_⟩
  exact List.getElem?_append_left hi

theorem readH_extends {h h2 : Heap} (hx : heapExtends h h2) (a : Addr)
    (ha : a < h.length) : readH h2 a = readH h a := by
  unfold readH
  rw [List.getD_eq_getElem?_getD, List.getD_eq_getElem?_getD, hx.2 a ha]

theorem mapRead_extends {h h2 : Heap} (hx : heapExtends h h2) (refs : List Addr)
    (hv : ∀ a ∈ refs, a < h.length) :
    refs.map (readH h2) = refs.map (readH h) := by
  apply List.map_congr_left
  intro a ha
  exact readH_extends hx a (hv a ha)

theorem toggleTaskStatusH_cons (h : Heap) (a : Addr) (rest : List Addr)
    (id : String) (now : Nat) :
    toggleTaskStatusH h (a :: rest) id now
      = if (readH h a).id = id then
          ((toggleTaskStatusH
              (h ++ [{ readH h a with done := !(readH h a).done, updatedAt := some now }])
              rest id now).1,
            h.length :: (toggleTaskStatusH
              (h ++ [{ readH h a with done := !(readH h a).done, updatedAt := some now }])
              rest id now).2)
        else ((toggleTaskStatusH h rest id now).1,
          a :: (toggleTaskStatusH h rest id now).2) := rfl

theorem updateTaskH_cons (h : Heap) (a : Addr) (rest : List Addr)
    (id : String) (p : TaskPatch) :
    updateTaskH h (a :: rest) id p
      = if (readH h a).id = id then
          ((updateTaskH (h ++ [applyPatch (readH h a) p]) rest id p).1,
            h.length :: (updateTaskH (h ++ [applyPatch (readH h a) p]) rest id p).2)
        else ((updateTaskH h rest id p).1, a :: (updateTaskH h rest id p).2) := rfl

theorem toggleTaskStatusH_extends :
    ∀ (refs : List Addr) (h : Heap) (id : String) (now : Nat),
      heapExtends h (toggleTaskStatusH h refs id now).1
  | [], h, _, _ => heapExtends_refl h
  | a :: rest, h, id, now => by
    rw [toggleTaskStatusH_cons]
    by_cases hc : (readH h a).id = id
    · rw [if_pos hc]
      exact heapExtends_trans (heapExtends_append h _)
        (toggleTaskStatusH_extends rest _ id now)
    · rw [if_neg hc]
      exact toggleTaskStatusH_extends rest h id now

theorem updateTaskH_extends :
    ∀ (refs : List Addr) (h : Heap) (id : String) (p : TaskPatch),
      heapExtends h (updateTaskH h refs id p).1
  | [], h, _, _ => heapExtends_refl h
  | a :: rest, h, id, p => by
    rw [updateTaskH_cons]
    by_cases hc : (readH h a).id = id
    · rw [if_pos hc]
      exact heapExtends_trans (heapExtends_append h _)
        (updateTaskH_extends rest _ id p)
    · rw [if_neg hc]
      exact updateTaskH_extends rest h id p

/-- C5: none of the four mutators writes to an existing object: each leaves
every already-allocated heap cell unchanged (`heapExtends`), and in
particular the input reference list, re-read after the call, still holds
exactly the task values it held before. The reference list value itself is
untouched (each function builds a new list). -/
theorem mutators_never_mutate_input
    (h : Heap) (refs : List Addr) (text : String) (dueDate priority : Option String)
    (tags : Json) (freshId : String) (now : Nat) (id : String) (p : TaskPatch)
    (hv : ∀ a ∈ refs, a < h.length) :
    (heapExtends h (addTaskH h refs text dueDate priority tags freshId now).1
      ∧ refs.map (readH (addTaskH h refs text dueDate priority tags freshId now).1)
          = refs.map (readH h))
    ∧ (heapExtends h (deleteTaskH h refs id).1
      ∧ refs.map (readH (deleteTaskH h refs id).1) = refs.map (readH h))
    ∧ (heapExtends h (toggleTaskStatusH h refs id now).1
      ∧ refs.map (readH (toggleTaskStatusH h refs id now).1) = refs.map (readH h))
    ∧ (heapExtends h (updateTaskH h refs id p).1
      ∧ refs.map (readH (updateTaskH h refs id p).1) = refs.map (readH h)) := by
  have hadd : heapExtends h (addTaskH h refs text dueDate priority tags freshId now).1 :=
    heapExtends_append h _
  have hdel : heapExtends h (deleteTaskH h refs id).1 := heapExtends_refl h
  have htog := toggleTaskStatusH_extends refs h id now
  have hupd := updateTaskH_extends refs h id p
  exact ⟨⟨hadd, mapRead_extends hadd refs hv⟩,
    ⟨hdel, mapRead_extends hdel refs hv⟩,
    ⟨htog, mapRead_extends htog refs hv⟩,
    ⟨hupd, mapRead_extends hupd refs hv⟩⟩

/-- C5 witness: a concrete two-object heap whose first task matches the
mutated identifier. -/
theorem mutators_never_mutate_input_witness :
    (∀ a ∈ [0, 1], a < ([⟨"1", "a", false, 0, none, none, [], none⟩,
        ⟨"2", "b", true, 1, none, none, [], none⟩] : Heap).length)
    ∧ ([0, 1].map (readH (toggleTaskStatusH
          [⟨"1", "a", false, 0, none, none, [], none⟩,
            ⟨"2", "b", true, 1, none, none, [], none⟩] [0, 1] "1" 9).1)
        = [0, 1].map (readH [⟨"1", "a", false, 0, none, none, [], none⟩,
            ⟨"2", "b", true, 1, none, none, [], none⟩])) := by
  refine ⟨by decide, ?_⟩
  exact (mutators_never_mutate_input
    [⟨"1", "a", false, 0, none, none, [], none⟩,
      ⟨"2", "b", true, 1, none, none, [], none⟩]
    [0, 1] "t" none none Json.null "3" 9 "1" {} (by decide)).2.2.1.2

theorem digitVal?_digitChar : ∀ d : Nat, d < 10 → digitVal? (Nat.digitChar d) = some d := by
  decide

theorem hexVal?_digitChar : ∀ d : Nat, d < 16 → hexVal? (Nat.digitChar d) = some d := by
  decide

theorem digitChar_class : ∀ d : Nat, d < 10 →
    jsonIsWs (Nat.digitChar d) = false ∧ Nat.digitChar d ≠ 'n'
      ∧ Nat.digitChar d ≠ 't' ∧ Nat.digitChar d ≠ 'f' ∧ Nat.digitChar d ≠ '"'
      ∧ Nat.digitChar d ≠ '[' ∧ Nat.digitChar d ≠ '\x7b' ∧ Nat.digitChar d ≠ ']'
      ∧ Nat.digitChar d ≠ '\x7d' ∧ Nat.digitChar d ≠ ',' ∧ Nat.digitChar d ≠ '-' := by
  decide

theorem printNatAux_spec : ∀ (fuel n : Nat), n < fuel →
    ∃ d ds, printNatAux fuel n = (d :: ds).map Nat.digitChar
      ∧ d < 10 ∧ (∀ x ∈ ds, x < 10)
      ∧ List.foldl (fun a x => a * 10 + x) d ds = n
      ∧ (d = 0 → n = 0 ∧ ds = [])
  | 0, n, h => absurd h (Nat.not_lt_zero n)
  | fuel + 1, n, h => by
    rw [printNatAux]
    by_cases h10 : n < 10
    · rw [if_pos h10]
      exact ⟨n, [], rfl, h10, by simp, rfl, fun h0 => ⟨h0, rfl⟩⟩
    · rw [if_neg h10]
      have hdiv : n / 10 < fuel := by omega
      obtain ⟨d, ds, heq, hd, hds, hfold, hzero⟩ := printNatAux_spec fuel (n / 10) hdiv
      refine ⟨d, ds ++ [n % 10], ?_, hd, ?_, ?_, ?_⟩
      · rw [heq]
        simp
      · intro x hx
        rcases List.mem_append.mp hx with hx | hx
        · exact hds x hx
        · simp only [List.mem_singleton] at hx
          omega
      · rw [List.foldl_append, hfold]
        simp only [List.foldl_cons, List.foldl_nil]
        omega
      · intro h0
        have := hzero h0
        omega

theorem printNat_spec (n : Nat) :
    ∃ d ds, printNat n = (d :: ds).map Nat.digitChar
      ∧ d < 10 ∧ (∀ x ∈ ds, x < 10)
      ∧ List.foldl (fun a x => a * 10 + x) d ds = n
      ∧ (d = 0 → n = 0 ∧ ds = []) :=
  printNatAux_spec (n + 1) n (Nat.lt_succ_self n)

theorem parseDigitsAux_digits : ∀ (ds : List Nat) (acc : Nat) (rest : List Char),
    (∀ d ∈ ds, d < 10) → numTailOk rest →
    parseDigitsAux (ds.map Nat.digitChar ++ rest) acc
      = (List.foldl (fun a x => a * 10 + x) acc ds, rest)
  | [], acc, rest, _, hrest => by
    simp only [List.map_nil, List.nil_append, List.foldl_nil]
    cases rest with
    | nil => rfl
    | cons c l =>
      have hc : digitVal? c = none := (hrest c rfl).1
      simp [parseDigitsAux, hc]
  | d :: ds, acc, rest, hds, hrest => by
    simp only [List.map_cons, List.cons_append, List.foldl_cons]
    have hd := digitVal?_digitChar d (hds d (by simp))
    simp only [parseDigitsAux, hd]
    exact parseDigitsAux_digits ds (acc * 10 + d) rest
      (fun x hx => hds x (by simp [hx])) hrest

theorem parseNumberNat_print (n : Nat) (rest : List Char) (hrest : numTailOk rest) :
    parseNumberNat (printNat n ++ rest) = some (n, rest) := by
  obtain ⟨d, ds, heq, hd, hds, hfold, hzero⟩ := printNat_spec n
  rw [heq]
  simp only [List.map_cons, List.cons_append]
  have hdv := digitVal?_digitChar d hd
  simp only [parseNumberNat, hdv]
  by_cases h0 : d = 0
  · obtain ⟨hn0, hds0⟩ := hzero h0
    subst hds0
    simp only [List.map_nil, List.nil_append]
    cases rest with
    | nil => simp [h0, hn0]
    | cons c l =>
      have hc : digitVal? c = none := (hrest c rfl).1
      simp [h0, hn0, hc]
  · simp only [if_neg h0]
    rw [parseDigitsAux_digits ds d rest hds hrest, hfold]

theorem parseNumber_print (i : Int) (rest : List Char) (hrest : numTailOk rest) :
    parseNumber (printInt i ++ rest) = some (i, rest) := by
  cases i with
  | ofNat n =>
    obtain ⟨d, ds, heq, hd, hds, hfold, hzero⟩ := printNat_spec n
    have hpn := parseNumberNat_print n rest hrest
    show parseNumber (printNat n ++ rest) = some (Int.ofNat n, rest)
    rw [heq] at hpn ⊢
    simp only [List.map_cons, List.cons_append] at hpn ⊢
    have hminus : Nat.digitChar d ≠ '-' := (digitChar_class d hd).2.2.2.2.2.2.2.2.2.2
    simp only [parseNumber, hminus, if_false, ite_false]
    rw [hpn]
    cases rest with
    | nil => simp
    | cons r l =>
      obtain ⟨_, h1, h2, h3⟩ := hrest r rfl
      simp [h1, h2, h3]
  | negSucc m =>
    have hpn := parseNumberNat_print (m + 1) rest hrest
    show parseNumber ('-' :: (printNat (m + 1) ++ rest)) = some (Int.negSucc m, rest)
    simp only [parseNumber, if_pos, ite_true]
    rw [hpn]
    have hcast : -((m + 1 : Nat) : Int) = Int.negSucc m := by
      simp [Int.negSucc_eq]
    cases rest with
    | nil =>
      simp
      omega
    | cons r l =>
      obtain ⟨_, h1, h2, h3⟩ := hrest r rfl
      simp [h1, h2, h3]
      omega

theorem parseStringBody_escapeChar (c : Char) (l cs rest : List Char)
    (h : parseStringBody l = some (cs, rest)) :
    parseStringBody (escapeChar c ++ l) = some (c :: cs, rest) := by
  by_cases h1 : c = '"'
  · subst h1
    show (parseStringBody l).map (fun r => ('"' :: r.1, r.2)) = some ('"' :: cs, rest)
    rw [h]
    rfl
  by_cases h2 : c = '\\'
  · subst h2
    show (parseStringBody l).map (fun r => ('\\' :: r.1, r.2)) = some ('\\' :: cs, rest)
    rw [h]
    rfl
  by_cases h3 : c = '\x08'
  · subst h3
    show (parseStringBody l).map (fun r => ('\x08' :: r.1, r.2)) = some ('\x08' :: cs, rest)
    rw [h]
    rfl
  by_cases h4 : c = '\t'
  · subst h4
    show (parseStringBody l).map (fun r => ('\t' :: r.1, r.2)) = some ('\t' :: cs, rest)
    rw [h]
    rfl
  by_cases h5 : c = '\n'
  · subst h5
    show (parseStringBody l).map (fun r => ('\n' :: r.1, r.2)) = some ('\n' :: cs, rest)
    rw [h]
    rfl
  by_cases h6 : c = '\x0c'
  · subst h6
    show (parseStringBody l).map (fun r => ('\x0c' :: r.1, r.2)) = some ('\x0c' :: cs, rest)
    rw [h]
    rfl
  by_cases h7 : c = '\r'
  · subst h7
    show (parseStringBody l).map (fun r => ('\r' :: r.1, r.2)) = some ('\r' :: cs, rest)
    rw [h]
    rfl
  by_cases h32 : c.toNat < 32
  · have hesc : escapeChar c
        = ['\\', 'u', '0', '0', Nat.digitChar (c.toNat / 16), Nat.digitChar (c.toNat % 16)] := by
      unfold escapeChar
      rw [if_neg h1, if_neg h2, if_neg h3, if_neg h4, if_neg h5, if_neg h6, if_neg h7,
        if_pos h32]
    rw [hesc]
    simp only [List.cons_append, List.nil_append]
    have hred : parseStringBody
        ('\\' :: 'u' :: '0' :: '0' :: Nat.digitChar (c.toNat / 16)
          :: Nat.digitChar (c.toNat % 16) :: l)
        = match hexVal? '0', hexVal? '0', hexVal? (Nat.digitChar (c.toNat / 16)),
            hexVal? (Nat.digitChar (c.toNat % 16)) with
          | some a, some b, some e, some f =>
            (parseStringBody l).map
              (fun r => (Char.ofNat (((a * 16 + b) * 16 + e) * 16 + f) :: r.1, r.2))
          | _, _, _, _ => none := rfl
    have hh := hexVal?_digitChar (c.toNat / 16) (by omega)
    have hl := hexVal?_digitChar (c.toNat % 16) (by omega)
    have h00 : hexVal? '0' = some 0 := rfl
    rw [hred, h00, hh, hl]
    have harith : ((0 * 16 + 0) * 16 + c.toNat / 16) * 16 + c.toNat % 16 = c.toNat := by
      omega
    have hfinal : (parseStringBody l).map
        (fun r => (Char.ofNat (((0 * 16 + 0) * 16 + c.toNat / 16) * 16 + c.toNat % 16)
          :: r.1, r.2)) = some (c :: cs, rest) := by
      rw [h, harith, Char.ofNat_toNat]
      rfl
    exact hfinal
  · have hesc : escapeChar c = [c] := by
      unfold escapeChar
      rw [if_neg h1, if_neg h2, if_neg h3, if_neg h4, if_neg h5, if_neg h6, if_neg h7,
        if_neg h32]
    rw [hesc]
    simp only [List.cons_append, List.nil_append]
    rw [parseStringBody.eq_def]
    simp only [h1, h2, h32, if_false, ite_false]
    rw [h]
    rfl

theorem parseStringBody_escape : ∀ (cs rest : List Char),
    parseStringBody (escapeChars cs ++ '"' :: rest) = some (cs, rest)
  | [], rest => by
    show parseStringBody ('"' :: rest) = some ([], rest)
    rw [parseStringBody.eq_def]
    rfl
  | c :: cs, rest => by
    rw [escapeChars, List.append_assoc]
    exact parseStringBody_escapeChar c _ cs rest (parseStringBody_escape cs rest)

theorem sizeJ_pos (j : Json) : 1 ≤ sizeJ j := by
  cases j <;> simp [sizeJ]

theorem sizeL_pos (xs : JsonList) : 1 ≤ sizeL xs := by
  cases xs <;> simp [sizeL]

theorem sizeF_pos (kvs : JsonFields) : 1 ≤ sizeF kvs := by
  cases kvs <;> simp [sizeF]

theorem skipWs_cons_of_not (c : Char) (l : List Char) (h : jsonIsWs c = false) :
    skipWs (c :: l) = c :: l := by
  simp [skipWs, h]

theorem printInt_head (i : Int) : ∃ c l, printInt i = c :: l
    ∧ jsonIsWs c = false
    ∧ c ∉ ['n', 't', 'f', '"', '[', '\x7b', ']', '\x7d', ','] := by
  cases i with
  | ofNat n =>
    obtain ⟨d, ds, heq, hd, _, _, _⟩ := printNat_spec n
    refine ⟨Nat.digitChar d, ds.map Nat.digitChar, heq, ?_⟩
    have hc := digitChar_class d hd
    simp only [List.mem_cons, List.mem_singleton, not_or, List.not_mem_nil,
      not_false_iff, and_true]
    exact ⟨hc.1, hc.2.1, hc.2.2.1, hc.2.2.2.1, hc.2.2.2.2.1, hc.2.2.2.2.2.1,
      hc.2.2.2.2.2.2.1, hc.2.2.2.2.2.2.2.1, hc.2.2.2.2.2.2.2.2.1,
      hc.2.2.2.2.2.2.2.2.2.1⟩
  | negSucc m =>
    refine ⟨'-', printNat (m + 1), rfl, ?_⟩
    decide

theorem stringifyChars_head (j : Json) : ∃ c l, stringifyChars j = c :: l
    ∧ jsonIsWs c = false ∧ c ≠ ']' ∧ c ≠ '\x7d' ∧ c ≠ ',' := by
  cases j with
  | null =>
    refine ⟨'n', _, rfl, ?_⟩
    decide
  | bool b =>
    cases b with
    | true =>
      refine ⟨'t', _, rfl, ?_⟩
      decide
    | false =>
      refine ⟨'f', _, rfl, ?_⟩
      decide
  | num n =>
    obtain ⟨c, l, heq, hws, hmem⟩ := printInt_head n
    simp only [List.mem_cons, List.mem_singleton, not_or] at hmem
    exact ⟨c, l, heq, hws, hmem.2.2.2.2.2.2.1, hmem.2.2.2.2.2.2.2.1,
      hmem.2.2.2.2.2.2.2.2.1⟩
  | str s =>
    refine ⟨'"', _, rfl, ?_⟩
    decide
  | arr xs =>
    refine ⟨'[', _, rfl, ?_⟩
    decide
  | obj kvs =>
    refine ⟨'\x7b', _, rfl, ?_⟩
    decide

theorem stringifyListChars_cons (j : Json) (tl : JsonList) :
    stringifyListChars (.cons j tl) = stringifyChars j ++ arrSepChars tl := by
  cases tl with
  | nil => simp [stringifyListChars, arrSepChars]
  | cons j2 tl2 => rfl

theorem stringifyFieldsChars_cons (k : String) (v : Json) (tl : JsonFields) :
    stringifyFieldsChars (.cons k v tl)
      = quoteChars k.data ++ ':' :: (stringifyChars v ++ objSepChars tl) := by
  cases tl with
  | nil => simp [stringifyFieldsChars, objSepChars]
  | cons k2 v2 tl2 => simp [stringifyFieldsChars, objSepChars]

theorem skipWs_arrBody (xs : JsonList) (rest : List Char) :
    skipWs (stringifyListChars xs ++ ']' :: rest)
      = stringifyListChars xs ++ ']' :: rest := by
  cases xs with
  | nil =>
    show skipWs (']' :: rest) = ']' :: rest
    exact skipWs_cons_of_not _ _ (by decide)
  | cons j tl =>
    obtain ⟨c, l, heq, hws, _, _, _⟩ := stringifyChars_head j
    rw [stringifyListChars_cons, heq]
    simp only [List.cons_append, List.append_assoc]
    exact skipWs_cons_of_not _ _ hws

theorem skipWs_arrSep (tl : JsonList) (rest : List Char) :
    skipWs (arrSepChars tl ++ ']' :: rest) = arrSepChars tl ++ ']' :: rest := by
  cases tl with
  | nil =>
    show skipWs (']' :: rest) = ']' :: rest
    exact skipWs_cons_of_not _ _ (by decide)
  | cons j tl2 =>
    show skipWs (',' :: _) = ',' :: _
    exact skipWs_cons_of_not _ _ (by decide)

theorem skipWs_objBody (kvs : JsonFields) (rest : List Char) :
    skipWs (stringifyFieldsChars kvs ++ '\x7d' :: rest)
      = stringifyFieldsChars kvs ++ '\x7d' :: rest := by
  cases kvs with
  | nil =>
    show skipWs ('\x7d' :: rest) = '\x7d' :: rest
    exact skipWs_cons_of_not _ _ (by decide)
  | cons k v tl =>
    rw [stringifyFieldsChars_cons]
    show skipWs ('"' :: _) = '"' :: _
    exact skipWs_cons_of_not _ _ (by decide)

theorem skipWs_objSep (tl : JsonFields) (rest : List Char) :
    skipWs (objSepChars tl ++ '\x7d' :: rest) = objSepChars tl ++ '\x7d' :: rest := by
  cases tl with
  | nil =>
    show skipWs ('\x7d' :: rest) = '\x7d' :: rest
    exact skipWs_cons_of_not _ _ (by decide)
  | cons k v tl2 =>
    show skipWs (',' :: _) = ',' :: _
    exact skipWs_cons_of_not _ _ (by decide)

theorem numTailOk_nil : numTailOk [] := by
  intro c hc
  simp at hc

theorem numTailOk_cons (c : Char) (l : List Char) (h1 : digitVal? c = none)
    (h2 : c ≠ '.') (h3 : c ≠ 'e') (h4 : c ≠ 'E') : numTailOk (c :: l) := by
  intro c2 hc2
  simp only [List.head?_cons, Option.some.injEq] at hc2
  subst hc2
  exact ⟨h1, h2, h3, h4⟩

theorem numTailOk_arrSep (tl : JsonList) (rest : List Char) :
    numTailOk (arrSepChars tl ++ ']' :: rest) := by
  cases tl with
  | nil =>
    show numTailOk (']' :: rest)
    exact numTailOk_cons _ _ (by decide) (by decide) (by decide) (by decide)
  | cons j tl2 =>
    show numTailOk (',' :: _)
    exact numTailOk_cons _ _ (by decide) (by decide) (by decide) (by decide)

theorem numTailOk_objSep (tl : JsonFields) (rest : List Char) :
    numTailOk (objSepChars tl ++ '\x7d' :: rest) := by
  cases tl with
  | nil =>
    show numTailOk ('\x7d' :: rest)
    exact numTailOk_cons _ _ (by decide) (by decide) (by decide) (by decide)
  | cons k v tl2 =>
    show numTailOk (',' :: _)
    exact numTailOk_cons _ _ (by decide) (by decide) (by decide) (by decide)

theorem parseVal_arr (fuel : Nat) (l : List Char) :
    parseVal (fuel + 1) ('[' :: l)
      = (parseArrItems fuel (skipWs l)).map (fun r => (Json.arr r.1, r.2)) := rfl

theorem parseVal_obj (fuel : Nat) (l : List Char) :
    parseVal (fuel + 1) ('\x7b' :: l)
      = (parseObjItems fuel (skipWs l)).map (fun r => (Json.obj r.1, r.2)) := rfl

mutual

/-- Round trip of a value: parsing the `stringifyChars` output (with any
numeral-safe tail appended) returns exactly the printed value, given fuel
at least the nesting measure. -/
theorem parseVal_print : ∀ (j : Json) (fuel : Nat) (rest : List Char),
    sizeJ j ≤ fuel → numTailOk rest →
    parseVal fuel (stringifyChars j ++ rest) = some (j, rest)
  | j, 0, _, hs, _ => by
    have := sizeJ_pos j
    omega
  | .null, fuel + 1, rest, _, _ => by
    show parseVal (fuel + 1) ('n' :: 'u' :: 'l' :: 'l' :: rest) = some (.null, rest)
    rw [parseVal.eq_def]
    rfl
  | .bool true, fuel + 1, rest, _, _ => by
    show parseVal (fuel + 1) ('t' :: 'r' :: 'u' :: 'e' :: rest) = some (.bool true, rest)
    rw [parseVal.eq_def]
    rfl
  | .bool false, fuel + 1, rest, _, _ => by
    show parseVal (fuel + 1) ('f' :: 'a' :: 'l' :: 's' :: 'e' :: rest)
      = some (.bool false, rest)
    rw [parseVal.eq_def]
    rfl
  | .str s, fuel + 1, rest, _, _ => by
    have hlist : stringifyChars (.str s) ++ rest
        = '"' :: (escapeChars s.data ++ '"' :: rest) := by
      simp [stringifyChars, quoteChars]
    rw [hlist]
    have hred : parseVal (fuel + 1) ('"' :: (escapeChars s.data ++ '"' :: rest))
        = (parseStringBody (escapeChars s.data ++ '"' :: rest)).map
            (fun r => (Json.str (String.mk r.1), r.2)) := rfl
    rw [hred, parseStringBody_escape]
    rfl
  | .num n, fuel + 1, rest, _, hr => by
    obtain ⟨c, l, heq, hws, hmem⟩ := printInt_head n
    simp only [List.mem_cons, List.mem_singleton, not_or] at hmem
    obtain ⟨h1, h2, h3, h4, h5, h6, _, _, _⟩ := hmem
    have hnum := parseNumber_print n rest hr
    show parseVal (fuel + 1) (printInt n ++ rest) = some (.num n, rest)
    rw [heq] at hnum ⊢
    simp only [List.cons_append] at hnum ⊢
    have hsw : skipWs (c :: (l ++ rest)) = c :: (l ++ rest) :=
      skipWs_cons_of_not _ _ hws
    rw [parseVal.eq_def]
    simp only [hsw, h1, h2, h3, h4, h5, h6, if_false, ite_false, hnum,
      Option.map_some']
  | .arr xs, fuel + 1, rest, hs, hr => by
    have hlist : stringifyChars (.arr xs) ++ rest
        = '[' :: (stringifyListChars xs ++ ']' :: rest) := by
      simp [stringifyChars]
    have hsz : sizeL xs ≤ fuel := by
      have h : sizeJ (.arr xs) = sizeL xs + 1 := rfl
      omega
    rw [hlist, parseVal_arr, skipWs_arrBody,
      parseArrItems_print xs fuel rest hsz hr]
    rfl
  | .obj kvs, fuel + 1, rest, hs, hr => by
    have hlist : stringifyChars (.obj kvs) ++ rest
        = '\x7b' :: (stringifyFieldsChars kvs ++ '\x7d' :: rest) := by
      simp [stringifyChars]
    have hsz : sizeF kvs ≤ fuel := by
      have h : sizeJ (.obj kvs) = sizeF kvs + 1 := rfl
      omega
    rw [hlist, parseVal_obj, skipWs_objBody,
      parseObjItems_print kvs fuel rest hsz hr]
    rfl

/-- Round trip of an array body, placed right after the opening bracket. -/
theorem parseArrItems_print : ∀ (xs : JsonList) (fuel : Nat) (rest : List Char),
    sizeL xs ≤ fuel → numTailOk rest →
    parseArrItems fuel (stringifyListChars xs ++ ']' :: rest) = some (xs, rest)
  | xs, 0, _, hs, _ => by
    have := sizeL_pos xs
    omega
  | .nil, fuel + 1, rest, _, _ => by
    show parseArrItems (fuel + 1) (']' :: rest) = some (.nil, rest)
    rw [parseArrItems.eq_def]
    rfl
  | .cons j tl, fuel + 1, rest, hs, hr => by
    obtain ⟨c, l, heq, _, hrb, _, _⟩ := stringifyChars_head j
    have hszj : sizeJ j ≤ fuel := by
      have h : sizeL (.cons j tl) = sizeJ j + sizeL tl + 1 := rfl
      have := sizeL_pos tl
      omega
    have hsztl : sizeL tl ≤ fuel := by
      have h : sizeL (.cons j tl) = sizeJ j + sizeL tl + 1 := rfl
      have := sizeJ_pos j
      omega
    have hj : parseVal fuel (stringifyChars j ++ (arrSepChars tl ++ ']' :: rest))
        = some (j, arrSepChars tl ++ ']' :: rest) :=
      parseVal_print j fuel _ hszj (numTailOk_arrSep tl rest)
    have htl : parseArrRest fuel (arrSepChars tl ++ ']' :: rest) = some (tl, rest) :=
      parseArrRest_print tl fuel rest hsztl hr
    rw [stringifyListChars_cons, List.append_assoc, heq]
    simp only [List.cons_append]
    rw [heq] at hj
    simp only [List.cons_append] at hj
    rw [parseArrItems.eq_def]
    simp only [hrb, if_false, ite_false, hj, Option.some_bind, skipWs_arrSep, htl,
      Option.map_some']

/-- Round trip of an array tail, placed right after an element. -/
theorem parseArrRest_print : ∀ (tl : JsonList) (fuel : Nat) (rest : List Char),
    sizeL tl ≤ fuel → numTailOk rest →
    parseArrRest fuel (arrSepChars tl ++ ']' :: rest) = some (tl, rest)
  | tl, 0, _, hs, _ => by
    have := sizeL_pos tl
    omega
  | .nil, fuel + 1, rest, _, _ => by
    show parseArrRest (fuel + 1) (']' :: rest) = some (.nil, rest)
    rw [parseArrRest.eq_def]
    rfl
  | .cons j tl, fuel + 1, rest, hs, hr => by
    have hszj : sizeJ j ≤ fuel := by
      have h : sizeL (.cons j tl) = sizeJ j + sizeL tl + 1 := rfl
      have := sizeL_pos tl
      omega
    have hsztl : sizeL tl ≤ fuel := by
      have h : sizeL (.cons j tl) = sizeJ j + sizeL tl + 1 := rfl
      have := sizeJ_pos j
      omega
    have hj : parseVal fuel (stringifyChars j ++ (arrSepChars tl ++ ']' :: rest))
        = some (j, arrSepChars tl ++ ']' :: rest) :=
      parseVal_print j fuel _ hszj (numTailOk_arrSep tl rest)
    have htl : parseArrRest fuel (arrSepChars tl ++ ']' :: rest) = some (tl, rest) :=
      parseArrRest_print tl fuel rest hsztl hr
    show parseArrRest (fuel + 1)
      (',' :: (stringifyListChars (.cons j tl) ++ ']' :: rest)) = _
    rw [stringifyListChars_cons, List.append_assoc]
    rw [parseArrRest.eq_def]
    simp only [if_neg (by decide : ¬ (',' : Char) = ']'), if_pos rfl, hj,
      Option.some_bind, skipWs_arrSep, htl, Option.map_some', ite_true]

/-- Round trip of an object body, placed right after the opening brace. -/
theorem parseObjItems_print : ∀ (kvs : JsonFields) (fuel : Nat) (rest : List Char),
    sizeF kvs ≤ fuel → numTailOk rest →
    parseObjItems fuel (stringifyFieldsChars kvs ++ '\x7d' :: rest) = some (kvs, rest)
  | kvs, 0, _, hs, _ => by
    have := sizeF_pos kvs
    omega
  | .nil, fuel + 1, rest, _, _ => by
    show parseObjItems (fuel + 1) ('\x7d' :: rest) = some (.nil, rest)
    rw [parseObjItems.eq_def]
    rfl
  | .cons k v tl, fuel + 1, rest, hs, hr => by
    have hsz : sizeJ v + sizeF tl + 1 ≤ fuel := by
      have h : sizeF (.cons k v tl) = sizeJ v + sizeF tl + 2 := rfl
      omega
    have hm := parseMember_print k v tl fuel rest hsz hr
    have hshape : stringifyFieldsChars (.cons k v tl) ++ '\x7d' :: rest
        = '"' :: (escapeChars k.data ++ '"' :: (':' :: (stringifyChars v
            ++ (objSepChars tl ++ '\x7d' :: rest)))) := by
      rw [stringifyFieldsChars_cons]
      simp [quoteChars, List.append_assoc]
    rw [hshape]
    rw [hshape] at hm
    -- the member input has already been reshaped; throw away the quote shape
    rw [parseObjItems.eq_def]
    simp only [if_neg (by decide : ¬ ('"' : Char) = '\x7d')]
    exact hm

/-- Round trip of one object member and the members after it. -/
theorem parseMember_print : ∀ (k : String) (v : Json) (tl : JsonFields)
    (fuel : Nat) (rest : List Char),
    sizeJ v + sizeF tl + 1 ≤ fuel → numTailOk rest →
    parseMember fuel (stringifyFieldsChars (.cons k v tl) ++ '\x7d' :: rest)
      = some (.cons k v tl, rest)
  | k, v, tl, 0, _, hs, _ => by omega
  | k, v, tl, fuel + 1, rest, hs, hr => by
    have hv : parseVal fuel (stringifyChars v ++ (objSepChars tl ++ '\x7d' :: rest))
        = some (v, objSepChars tl ++ '\x7d' :: rest) :=
      parseVal_print v fuel _ (by omega) (numTailOk_objSep tl rest)
    have htl : parseObjRest fuel (objSepChars tl ++ '\x7d' :: rest)
        = some (tl, rest) :=
      parseObjRest_print tl fuel rest (by omega) hr
    have hkey := parseStringBody_escape k.data
      (':' :: (stringifyChars v ++ (objSepChars tl ++ '\x7d' :: rest)))
    have hsw : skipWs (':' :: (stringifyChars v ++ (objSepChars tl ++ '\x7d' :: rest)))
        = ':' :: (stringifyChars v ++ (objSepChars tl ++ '\x7d' :: rest)) :=
      skipWs_cons_of_not _ _ (by decide)
    have hshape : stringifyFieldsChars (.cons k v tl) ++ '\x7d' :: rest
        = '"' :: (escapeChars k.data ++ '"' :: (':' :: (stringifyChars v
            ++ (objSepChars tl ++ '\x7d' :: rest)))) := by
      rw [stringifyFieldsChars_cons]
      simp [quoteChars, List.append_assoc]
    rw [hshape]
    rw [parseMember.eq_def]
    simp only [hkey, Option.some_bind, hsw, hv, skipWs_objSep, htl, Option.map_some']

/-- Round trip of an object tail, placed right after a member. -/
theorem parseObjRest_print : ∀ (tl : JsonFields) (fuel : Nat) (rest : List Char),
    sizeF tl ≤ fuel → numTailOk rest →
    parseObjRest fuel (objSepChars tl ++ '\x7d' :: rest) = some (tl, rest)
  | tl, 0, _, hs, _ => by
    have := sizeF_pos tl
    omega
  | .nil, fuel + 1, rest, _, _ => by
    show parseObjRest (fuel + 1) ('\x7d' :: rest) = some (.nil, rest)
    rw [parseObjRest.eq_def]
    rfl
  | .cons k v tl, fuel + 1, rest, hs, hr => by
    have hsz : sizeJ v + sizeF tl + 1 ≤ fuel := by
      have h : sizeF (.cons k v tl) = sizeJ v + sizeF tl + 2 := rfl
      omega
    have hm := parseMember_print k v tl fuel rest hsz hr
    have hsw : skipWs (stringifyFieldsChars (.cons k v tl) ++ '\x7d' :: rest)
        = stringifyFieldsChars (.cons k v tl) ++ '\x7d' :: rest :=
      skipWs_objBody _ rest
    show parseObjRest (fuel + 1)
      (',' :: (stringifyFieldsChars (.cons k v tl) ++ '\x7d' :: rest)) = _
    rw [parseObjRest.eq_def]
    simp only [if_neg (by decide : ¬ (',' : Char) = '\x7d'), if_pos rfl, hsw,
      ite_true]
    exact hm

end

theorem quoteChars_length (l : List Char) :
    (quoteChars l).length = (escapeChars l).length + 2 := by
  simp [quoteChars]

theorem printInt_length_pos (i : Int) : 1 ≤ (printInt i).length := by
  obtain ⟨c, l, heq, _⟩ := printInt_head i
  rw [heq]
  simp

mutual

theorem sizeJ_le_len : ∀ j : Json, sizeJ j ≤ 2 * (stringifyChars j).length
  | .null => by simp [sizeJ, stringifyChars]
  | .bool true => by simp [sizeJ, stringifyChars]
  | .bool false => by simp [sizeJ, stringifyChars]
  | .num n => by
    have := printInt_length_pos n
    show sizeJ (.num n) ≤ 2 * (printInt n).length
    have h : sizeJ (.num n) = 1 := rfl
    omega
  | .str s => by
    show sizeJ (.str s) ≤ 2 * (quoteChars s.data).length
    rw [quoteChars_length]
    have h : sizeJ (.str s) = 1 := rfl
    omega
  | .arr xs => by
    have hb := sizeL_le_len xs
    have h1 : sizeJ (.arr xs) = sizeL xs + 1 := rfl
    have h2 : (stringifyChars (.arr xs)).length
        = (stringifyListChars xs).length + 2 := by
      show ('[' :: (stringifyListChars xs ++ [']'])).length = _
      simp
    omega
  | .obj kvs => by
    have hb := sizeF_le_len kvs
    have h1 : sizeJ (.obj kvs) = sizeF kvs + 1 := rfl
    have h2 : (stringifyChars (.obj kvs)).length
        = (stringifyFieldsChars kvs).length + 2 := by
      show ('\x7b' :: (stringifyFieldsChars kvs ++ ['\x7d'])).length = _
      simp
    omega

theorem sizeL_le_len : ∀ xs : JsonList,
    sizeL xs ≤ 2 * (stringifyListChars xs).length + 2
  | .nil => by simp [sizeL, stringifyListChars]
  | .cons j tl => by
    have hj := sizeJ_le_len j
    have h1 : sizeL (.cons j tl) = sizeJ j + sizeL tl + 1 := rfl
    have h2 : (stringifyListChars (.cons j tl)).length
        = (stringifyChars j).length + (arrSepChars tl).length := by
      rw [stringifyListChars_cons]
      simp
    cases tl with
    | nil =>
      have h3 : sizeL JsonList.nil = 1 := rfl
      have h4 : (arrSepChars JsonList.nil).length = 0 := rfl
      omega
    | cons j2 tl2 =>
      have htl := sizeL_le_len (JsonList.cons j2 tl2)
      have h4 : (arrSepChars (JsonList.cons j2 tl2)).length
          = (stringifyListChars (JsonList.cons j2 tl2)).length + 1 := by
        show (',' :: stringifyListChars (JsonList.cons j2 tl2)).length = _
        simp
      omega

theorem sizeF_le_len : ∀ kvs : JsonFields,
    sizeF kvs ≤ 2 * (stringifyFieldsChars kvs).length + 2
  | .nil => by simp [sizeF, stringifyFieldsChars]
  | .cons k v tl => by
    have hv := sizeJ_le_len v
    have h1 : sizeF (.cons k v tl) = sizeJ v + sizeF tl + 2 := rfl
    have h2 : (stringifyFieldsChars (.cons k v tl)).length
        = (quoteChars k.data).length + 1 + (stringifyChars v).length
          + (objSepChars tl).length := by
      rw [stringifyFieldsChars_cons]
      simp
      omega
    have hq : 2 ≤ (quoteChars k.data).length := by
      rw [quoteChars_length]
      omega
    cases tl with
    | nil =>
      have h3 : sizeF JsonFields.nil = 1 := rfl
      have h4 : (objSepChars JsonFields.nil).length = 0 := rfl
      omega
    | cons k2 v2 tl2 =>
      have htl := sizeF_le_len (JsonFields.cons k2 v2 tl2)
      have h4 : (objSepChars (JsonFields.cons k2 v2 tl2)).length
          = (stringifyFieldsChars (JsonFields.cons k2 v2 tl2)).length + 1 := by
        show (',' :: stringifyFieldsChars (JsonFields.cons k2 v2 tl2)).length = _
        simp
      omega

end

/-- Top-level round trip: `JSON.parse` of `JSON.stringify` output returns
exactly the stringified value. -/
theorem parseJson_stringify (j : Json) : parseJson (stringify j) = some j := by
  have hdata : (stringify j).data = stringifyChars j := rfl
  have hfuel : sizeJ j ≤ 2 * (stringifyChars j).length + 2 := by
    have := sizeJ_le_len j
    omega
  have hparse : parseVal (2 * (stringifyChars j).length + 2)
      (stringifyChars j ++ []) = some (j, []) :=
    parseVal_print j _ [] hfuel numTailOk_nil
  rw [List.append_nil] at hparse
  unfold parseJson
  rw [hdata, hparse]
  rfl

theorem strListFromJson_toJson : ∀ l : List String,
    strListFromJson (strListToJson l) = some l
  | [] => rfl
  | s :: tl => by
    show (strListFromJson (strListToJson tl)).map (fun l => s :: l) = _
    rw [strListFromJson_toJson tl]
    rfl

theorem taskFromJson_shape (id text : String) (done : Bool) (createdAt : Nat)
    (dd pr : Json) (tagsJ : JsonList) (upd : JsonFields) :
    taskFromJson (.obj (.cons "id" (.str id) (.cons "text" (.str text)
      (.cons "done" (.bool done) (.cons "createdAt" (.num (Int.ofNat createdAt))
        (.cons "dueDate" dd (.cons "priority" pr
          (.cons "tags" (.arr tagsJ) upd))))))))
      = match optStrFromJson dd, optStrFromJson pr, strListFromJson tagsJ, upd with
        | some dueDate, some priority, some tags, .nil =>
          some ⟨id, text, done, createdAt, dueDate, priority, tags, none⟩
        | some dueDate, some priority, some tags,
            .cons "updatedAt" (.num (.ofNat u)) .nil =>
          some ⟨id, text, done, createdAt, dueDate, priority, tags, some u⟩
        | _, _, _, _ => none := rfl

/-- Reading an encoded task back yields the task: JSON encoding loses no
task data. -/
theorem taskFromJson_encodeTask (t : Task) : taskFromJson (encodeTask t) = some t := by
  obtain ⟨id, text, done, createdAt, dueDate, priority, tags, updatedAt⟩ := t
  have htags := strListFromJson_toJson tags
  cases updatedAt <;> cases dueDate <;> cases priority <;>
    simp only [encodeTask, optStrToJson] <;>
    rw [taskFromJson_shape, htags] <;> rfl

theorem tasksFromJsonList_encode : ∀ L : List Task,
    tasksFromJsonList (encodeTasksList L) = some L
  | [] => rfl
  | t :: tl => by
    show (match taskFromJson (encodeTask t), tasksFromJsonList (encodeTasksList tl) with
      | some t, some ts => some (t :: ts)
      | _, _ => none) = some (t :: tl)
    rw [taskFromJson_encodeTask, tasksFromJsonList_encode tl]

/-- Reading an encoded task list back yields the list. -/
theorem tasksFromJson_encodeTasks (L : List Task) :
    tasksFromJson (encodeTasks L) = some L :=
  tasksFromJsonList_encode L

/-- C1 (code bug evidence): `saveTasks` has no try/catch, so when the
store's write throws (quota exceeded), the exception propagates to the
caller instead of being swallowed — contradicting the repo's own test
("handles localStorage quota exceeded errors", which asserts
`expect(() => saveTasks(...)).not.toThrow()`). -/
theorem saveTasks_propagates_write_failure :
    saveTasks [] ⟨[], false, true⟩ = .error ()
    ∧ saveTasks [⟨"1", "Test", false, 0, none, none, [], none⟩] ⟨[], false, true⟩
      = .error () := ⟨rfl, rfl⟩

/-- C3 counterexample: `loadTasks` performs no array shape check — a stored
well-formed JSON value that is not an array is returned as is, not replaced
by `[]`. -/
theorem loadTasks_no_shape_check :
    loadTasks ⟨[(LIST_ITEMS_LOCAL_STORAGE, "42")], false, false⟩ = Json.num 42
    ∧ Json.num 42 ≠ Json.arr .nil :=
  ⟨rfl, fun h => Json.noConfusion h⟩

/-- C3 (amended): `loadTasks` never propagates an exception; it returns
the parsed JSON value (whatever its shape) when the stored text parses, and
returns `[]` when the store read throws, the key is missing, the stored
string is empty, or the JSON is malformed. -/
theorem loadTasks_defensive (st : Store) :
    (st.readFails = true → loadTasks st = .arr .nil)
    ∧ (st.readFails = false → storeGet st LIST_ITEMS_LOCAL_STORAGE = none →
        loadTasks st = .arr .nil)
    ∧ (∀ s, st.readFails = false → storeGet st LIST_ITEMS_LOCAL_STORAGE = some s →
        parseJson s = none → loadTasks st = .arr .nil)
    ∧ (∀ s j, st.readFails = false → storeGet st LIST_ITEMS_LOCAL_STORAGE = some s →
        parseJson s = some j → loadTasks st = j) := by
  refine ⟨?_, ?_, ?_, ?_⟩
  · intro hrf
    unfold loadTasks getItem
    rw [hrf]
    rfl
  · intro hrf hget
    unfold loadTasks getItem
    rw [hrf]
    simp only [if_false, Bool.false_eq_true, ite_false, hget]
  · intro s hrf hget hparse
    unfold loadTasks getItem
    rw [hrf]
    simp only [if_false, Bool.false_eq_true, ite_false, hget]
    by_cases hs : s = ""
    · simp [hs]
    · simp [hs, hparse]
  · intro s j hrf hget hparse
    unfold loadTasks getItem
    rw [hrf]
    simp only [if_false, Bool.false_eq_true, ite_false, hget]
    by_cases hs : s = ""
    · exfalso
      subst hs
      rw [(rfl : parseJson "" = none)] at hparse
      exact Option.noConfusion hparse
    · simp [hs, hparse]

/-- C3 witness: a healthy store holding the literal text of an empty array. -/
theorem loadTasks_defensive_witness :
    parseJson "[]" = some (Json.arr .nil)
    ∧ loadTasks ⟨[(LIST_ITEMS_LOCAL_STORAGE, "[]")], false, false⟩ = Json.arr .nil :=
  ⟨rfl, (loadTasks_defensive ⟨[(LIST_ITEMS_LOCAL_STORAGE, "[]")], false, false⟩).2.2.2
    "[]" (Json.arr .nil) rfl rfl rfl⟩

/-- C8: saving any task list into an empty healthy store succeeds, and
loading afterwards returns exactly the JSON encoding of the saved list —
deep-equal to the saved list, as witnessed by `tasksFromJson` recovering
the very same records. -/
theorem save_then_load_roundtrip (L : List Task) :
    ∃ st2, saveTasks L emptyStore = .ok st2
      ∧ loadTasks st2 = encodeTasks L
      ∧ tasksFromJson (encodeTasks L) = some L := by
  refine ⟨storeSet emptyStore LIST_ITEMS_LOCAL_STORAGE (stringify (encodeTasks L)),
    rfl, ?_, tasksFromJson_encodeTasks L⟩
  have hne : stringify (encodeTasks L) ≠ "" := by
    intro h
    have hdata := congrArg String.data h
    have hchar : stringifyChars (encodeTasks L)
        = '[' :: (stringifyListChars (encodeTasksList L) ++ [']']) := rfl
    rw [show (stringify (encodeTasks L)).data = stringifyChars (encodeTasks L) from rfl,
      hchar] at hdata
    simp at hdata
  have h1 : loadTasks (storeSet emptyStore LIST_ITEMS_LOCAL_STORAGE
      (stringify (encodeTasks L)))
      = if stringify (encodeTasks L) = "" then Json.arr .nil
        else match parseJson (stringify (encodeTasks L)) with
          | some j => j
          | none => Json.arr .nil := rfl
  rw [h1, if_neg hne, parseJson_stringify]

end Todo
